import Mathlib

/-!
Verification of the lab programs.

Shallow embedding of C programs of the repository:

* `q11_file_handling.c`: the line / blank line / comment counter,
* `q2_sorting.c`: `bubble_sort` and `selection_sort`,
* `q4_searching_techniques.c`: `binary_search` and `linear_search`,
* `q8_recursion.c`: `GCD`, `LCM`, `Bin_to_Dec`,
* `q5_string_palindrome_function.c` and `q7_equal_strings_using_pointers.c`,
* `q1_quad_eq.c` and `q3_matrix_multiplication.c`.

Conventions of the embedding.

* A text is a `List Char`; a byte of the file is the character with that code.
* The `char line[1000]` buffer is a `List Char`.  Its initial content is
  indeterminate in C, so every statement quantifies over the initial buffer.
  A read `line[i]` outside of the list is a fault.
* `int` arithmetic is reduced to 32 bits two's complement (`wrapInt`): the
  counters `lines`, `bl_lines`, `comments` of the classifier are `Int` and
  `x++` is `wrapInt (x + 1)`, so a counter wraps at its `2^31`-th increment.
* `int` array elements are `Int`; they are only compared and moved.  An access
  outside of the array is a fault (`none`).
* In the sort functions the loop counters are natural numbers and `n` is an
  `Int`; every value computed lies between `-1` and `n + 1`.  In the other
  programs the `int` arithmetic is reduced to 32 bits as well, and `/` and
  `%` are the truncating operations of C.
* Loops and recursion carry a fuel argument; `none` is also the result when the
  fuel runs out, and every claim states how much fuel is enough.  The string
  programs return a `Run`, which tells a fault from exhausted fuel.
* The matrices are functions from the two indices to the element; an index of
  10 or more is a fault.
-/

namespace Searching

/-- The value of an `int` expression whose mathematical value is `x`, on a
machine with 32 bit two's complement `int`. -/
def wrapInt (x : Int) : Int :=
  (x + 2147483648) % 4294967296 - 2147483648

end Searching

namespace LineClassifier

/-- The value of `sizeof(line)` for `char line[1000]`. -/
def LINE_SIZE : Nat := 1000

/-- The characters `fgets` stores when it may still store `k` characters: it
stops after a newline, at end of file, or when `k` characters are stored.
Returns the stored characters and the unread rest of the stream. -/
def fgetsChars : Nat → List Char → List Char × List Char
  | 0, s => ([], s)
  | _ + 1, [] => ([], [])
  | k + 1, c :: s =>
    if c = '\n' then ([c], s)
    else ((c :: (fgetsChars k s).1), (fgetsChars k s).2)

/-- Model of `fgets(line, size, stream)`: `none` is the `NULL` result (end of
file before any character was read, buffer untouched); otherwise the new buffer
(the characters read, the terminating NUL, then whatever the buffer held after
that position) and the unread rest of the stream. -/
def fgets (line : List Char) (size : Nat) (stream : List Char) :
    Option (List Char × List Char) :=
  match stream with
  | [] => none
  | _ :: _ =>
    let r := fgetsChars (size - 1) stream
    some (r.1 ++ '\x00' :: line.drop (r.1.length + 1), r.2)

/-- The loop `while (line[i] == ' ' || line[i] == '\t') i++;` started at `i`.
`none` is a read outside of the buffer (or exhausted fuel). -/
def skipBlanks (line : List Char) : Nat → Nat → Option Nat
  | 0, _ => none
  | fuel + 1, i =>
    match (line)[i]? with
    | none => none
    | some c => if c = ' ' ∨ c = '\t' then skipBlanks line fuel (i + 1) else some i

/-- The test `line[i] == '\n' || line[i] == '\0'` after the whitespace scan
from `i = 0`. `none` is a read outside of the buffer. -/
def isBlank (line : List Char) : Option Bool :=
  match skipBlanks line (line.length + 1) 0 with
  | none => none
  | some i =>
    match (line)[i]? with
    | none => none
    | some c => some (decide (c = '\n' ∨ c = '\x00'))

/-- The test `line[0] == '/' && line[1] == '/'`; `line[1]` is read only when
`line[0]` is a slash. `none` is a read outside of the buffer. -/
def isComment (line : List Char) : Option Bool :=
  match (line)[0]? with
  | none => none
  | some c0 =>
    if c0 = '/' then
      match (line)[1]? with
      | none => none
      | some c1 => some (decide (c1 = '/'))
    else some false

/-- The variables of `main` while the loop runs. -/
structure LoopState where
  /-- The unread part of the file behind `records`. -/
  records : List Char
  /-- The buffer `line`. -/
  line : List Char
  /-- The counter `int lines`. -/
  lines : Int
  /-- The counter `int bl_lines`. -/
  bl_lines : Int
  /-- The counter `int comments`. -/
  comments : Int
  deriving DecidableEq, Repr

/-- Outcome of one evaluation of the loop condition followed by the body. -/
inductive Step where
  /-- The call of `fgets` returned `NULL`: the loop is left. -/
  | eof
  /-- A read outside of `line`. -/
  | fault
  /-- The body ran; the new state. -/
  | next (st : LoopState)
  deriving DecidableEq, Repr

/-- One iteration of `while (fgets(line, sizeof(line), records) != NULL) ...`:
`lines++`, then `bl_lines++` and `comments++` when their tests hold, on 32 bit
`int`. -/
def loopBody (st : LoopState) : Step :=
  match fgets st.line LINE_SIZE st.records with
  | none => Step.eof
  | some (line, rest) =>
    match isBlank line, isComment line with
    | some b, some c =>
      Step.next
        { records := rest
          line := line
          lines := Searching.wrapInt (st.lines + 1)
          bl_lines := if b then Searching.wrapInt (st.bl_lines + 1) else st.bl_lines
          comments := if c then Searching.wrapInt (st.comments + 1) else st.comments }
    | _, _ => Step.fault

/-- The whole read loop; `none` when the fuel runs out or on a fault, otherwise
the state in which `fgets` returned `NULL`. -/
def readLoop : Nat → LoopState → Option LoopState
  | 0, _ => none
  | fuel + 1, st =>
    match loopBody st with
    | Step.eof => some st
    | Step.fault => none
    | Step.next st1 => readLoop fuel st1

/-- The state after exactly `k` iterations of the loop body, when the loop runs
that long. -/
def afterIterations : Nat → LoopState → Option LoopState
  | 0, st => some st
  | k + 1, st =>
    match loopBody st with
    | Step.next st1 => afterIterations k st1
    | _ => none

/-- The state at loop entry: all counters 0, nothing read yet, `buf` the
indeterminate initial content of `line`. -/
def initState (text buf : List Char) : LoopState :=
  { records := text, line := buf, lines := 0, bl_lines := 0, comments := 0 }

/-- What a run of the program produces: its standard output and exit status. -/
structure Outcome where
  stdout : String
  status : Int
  deriving DecidableEq, Repr

/-- The report `printf("Lines: %d\nBlank lines: %d\nComment lines: %d\n", ...)`. -/
def report (lines bl_lines comments : Int) : String :=
  "Lines: " ++ toString lines ++ "\nBlank lines: " ++ toString bl_lines ++
    "\nComment lines: " ++ toString comments ++ "\n"

/-- The program `main`. `file` is the content of `records.txt`, or `none` when
`fopen` returns `NULL`. The result is `none` when the loop runs out of fuel or
faults. -/
def main (fuel : Nat) (file : Option (List Char)) (buf : List Char) : Option Outcome :=
  match file with
  | none => some { stdout := "Error in opening file\n", status := 1 }
  | some text =>
    match readLoop fuel (initState text buf) with
    | none => none
    | some st => some { stdout := report st.lines st.bl_lines st.comments, status := 0 }

/-! ### Vocabulary of the specification -/

/-- The lines of a text: maximal runs of characters ended by a newline (kept as
the last character of the line) or by the end of the text. -/
def textLines : List Char → List (List Char)
  | [] => []
  | c :: s =>
    if c = '\n' then [c] :: textLines s
    else
      match textLines s with
      | [] => [[c]]
      | l :: ls => (c :: l) :: ls

/-- The content of a line: its characters before the terminating newline. -/
def lineContent (l : List Char) : List Char :=
  l.takeWhile (fun c => c ≠ '\n')

/-- Leading spaces and horizontal tabs removed. -/
def stripLeading (l : List Char) : List Char :=
  l.dropWhile (fun c => c = ' ' ∨ c = '\t')

/-- A blank line: the content is empty after stripping leading spaces and tabs. -/
def BlankLine (l : List Char) : Prop :=
  stripLeading (lineContent l) = []

instance (l : List Char) : Decidable (BlankLine l) := by
  unfold BlankLine; infer_instance

/-- A comment line: the first two raw characters are both slashes. -/
def CommentLine (l : List Char) : Prop :=
  l.take 2 = ['/', '/']

instance (l : List Char) : Decidable (CommentLine l) := by
  unfold CommentLine; infer_instance

/-- Every line of the text, its newline included, fits in one `fgets` call. -/
def ShortLines (text : List Char) : Prop :=
  ∀ l ∈ textLines text, l.length ≤ LINE_SIZE - 1

instance (text : List Char) : Decidable (ShortLines text) := by
  unfold ShortLines; infer_instance

/-- What the blank test computes on a buffer holding `chunk` followed by NUL:
the first character after the leading spaces and tabs (NUL when there is none)
is a newline or NUL. -/
def chunkBlank (chunk : List Char) : Bool :=
  decide (((stripLeading chunk).head?).getD '\x00' = '\n' ∨
    ((stripLeading chunk).head?).getD '\x00' = '\x00')

/-- What the comment test computes on a buffer holding `chunk` followed by NUL. -/
def chunkComment (chunk : List Char) : Bool :=
  decide (chunk.take 2 = ['/', '/'])

end LineClassifier


namespace Sorting

/-- A read `arr[k]`; `none` is an access outside of the array. -/
def readAt (arr : List Int) (k : Nat) : Option Int :=
  arr[k]?

/-- A write `arr[k] = v`; `none` is an access outside of the array. -/
def writeAt (arr : List Int) (k : Nat) (v : Int) : Option (List Int) :=
  if k < arr.length then some (arr.set k v) else none

/-- The loop `for (int i = ...; i < n; i++) printf("%d ", arr[i]);` from `i` on:
the numbers printed, in order. `none` is a fault or exhausted fuel. -/
def printLoop (arr : List Int) (n : Int) : Nat → Nat → Option (List Int)
  | 0, _ => none
  | fuel + 1, i =>
    if (i : Int) < n then do
      let a ← readAt arr i
      let rest ← printLoop arr n fuel (i + 1)
      pure (a :: rest)
    else pure []

/-- The text written by the three `printf` of a sort function when the numbers
printed by the loop are `xs`. -/
def sortedReport (xs : List Int) : String :=
  "Sorted array (ascending):\n" ++ String.join (xs.map (fun x => toString x ++ " ")) ++ "\n"

/-- The body of the inner loop of `bubble_sort`:
`if (arr[j] > arr[j + 1]) { temp = arr[j]; arr[j] = arr[j + 1]; arr[j + 1] = temp; }`. -/
def bubbleBody (arr : List Int) (j : Nat) : Option (List Int) := do
  let a ← readAt arr j
  let b ← readAt arr (j + 1)
  if a > b then
    let temp := a
    let arr1 ← writeAt arr j b
    writeAt arr1 (j + 1) temp
  else pure arr

/-- The inner loop `for (int j = ...; j < n - 1 - i; j++)` of `bubble_sort`,
from `j` on. -/
def bubbleInner (n : Int) (i : Nat) : Nat → Nat → List Int → Option (List Int)
  | 0, _, _ => none
  | fuel + 1, j, arr =>
    if (j : Int) < n - 1 - i then do
      let arr1 ← bubbleBody arr j
      bubbleInner n i fuel (j + 1) arr1
    else pure arr

/-- The outer loop `for (int i = ...; i < n; i++)` of `bubble_sort`, from `i`
on; every inner loop gets the fuel `fuel0`. -/
def bubbleOuter (n : Int) (fuel0 : Nat) : Nat → Nat → List Int → Option (List Int)
  | 0, _, _ => none
  | fuel + 1, i, arr =>
    if (i : Int) < n then do
      let arr1 ← bubbleInner n i fuel0 0 arr
      bubbleOuter n fuel0 fuel (i + 1) arr1
    else pure arr

/-- The function `bubble_sort(arr, n)`: the array it leaves and the text it
prints. `none` is an access outside of the array or exhausted fuel. -/
def bubble_sort (fuel : Nat) (arr : List Int) (n : Int) : Option (List Int × String) := do
  let arr1 ← bubbleOuter n fuel fuel 0 arr
  let printed ← printLoop arr1 n fuel 0
  pure (arr1, sortedReport printed)

/-- The locals `head`, `index`, `flag` of one outer iteration of `selection_sort`. -/
structure Selection where
  head : Int
  index : Nat
  flag : Int
  deriving DecidableEq, Repr

/-- The inner loop `for (int j = ...; j < n; j++)` of `selection_sort`, from `j`
on: `if (arr[j] < head) { head = arr[j]; index = j; flag = 1; }`. -/
def selectInner (arr : List Int) (n : Int) : Nat → Nat → Selection → Option Selection
  | 0, _, _ => none
  | fuel + 1, j, sel =>
    if (j : Int) < n then do
      let a ← readAt arr j
      if a < sel.head then
        selectInner arr n fuel (j + 1) { head := a, index := j, flag := 1 }
      else selectInner arr n fuel (j + 1) sel
    else pure sel

/-- The outer loop `for (int i = ...; i < n; i++)` of `selection_sort`, from `i`
on; every inner loop gets the fuel `fuel0`. -/
def selectOuter (n : Int) (fuel0 : Nat) : Nat → Nat → List Int → Option (List Int)
  | 0, _, _ => none
  | fuel + 1, i, arr =>
    if (i : Int) < n then do
      let head ← readAt arr i
      let sel ← selectInner arr n fuel0 (i + 1) { head := head, index := i, flag := 0 }
      if sel.flag = 1 then
        let ai ← readAt arr i
        let arr1 ← writeAt arr sel.index ai
        let arr2 ← writeAt arr1 i sel.head
        selectOuter n fuel0 fuel (i + 1) arr2
      else selectOuter n fuel0 fuel (i + 1) arr
    else pure arr

/-- The function `selection_sort(arr, n)`: the array it leaves and the text it
prints. `none` is an access outside of the array or exhausted fuel. -/
def selection_sort (fuel : Nat) (arr : List Int) (n : Int) : Option (List Int × String) := do
  let arr1 ← selectOuter n fuel fuel 0 arr
  let printed ← printLoop arr1 n fuel 0
  pure (arr1, sortedReport printed)

end Sorting

namespace Sorting

/-- The element at index `k` of the array, 0 outside of it (used only to state
properties; the programs read through `readAt`). -/
def nth (arr : List Int) (k : Nat) : Int :=
  (arr[k]?).getD 0

/-- The array is in non-decreasing order on the indices below `n`. -/
def Ascending (arr : List Int) (n : Nat) : Prop :=
  ∀ p q, p < q → q < n → nth arr p ≤ nth arr q

end Sorting

namespace Searching

/-- A read `arr[k]` with an `int` index; `none` is an access outside of the
array. -/
def readIndex (arr : List Int) (k : Int) : Option Int :=
  if 0 ≤ k then arr[k.toNat]? else none

/-- The function `binary_search(arr, lower, upper, element)`; `/` is the
truncating division of C. `none` is an access outside of the array or
exhausted fuel. -/
def binary_search (arr : List Int) : Nat → Int → Int → Int → Option Int
  | 0, _, _, _ => none
  | fuel + 1, lower, upper, element =>
    if lower > upper then some (-1)
    else
      let mid := (wrapInt (lower + upper)).tdiv 2
      match readIndex arr mid with
      | none => none
      | some a =>
        if a = element then some mid
        else if a > element then binary_search arr fuel lower (wrapInt (mid - 1)) element
        else binary_search arr fuel (wrapInt (mid + 1)) upper element

end Searching

namespace Searching

/-- The function `linear_search(arr, element, index, n)`. `none` is an access
outside of the array, exhausted fuel, or the end of the function reached
without a `return` (the value the caller then uses is indeterminate). -/
def linear_search (arr : List Int) : Nat → Int → Int → Int → Option Int
  | 0, _, _, _ => none
  | fuel + 1, element, index, n =>
    match readIndex arr index with
    | none => none
    | some a =>
      if a = element then some index
      else if index < n then linear_search arr fuel element (wrapInt (index + 1)) n
      else none

end Searching

namespace Recursion

/-- The `int` remainder `x % y` of C (the sign follows `x`); `none` is the
undefined behaviour of a zero divisor or of `INT_MIN % -1`. -/
def cmod (x y : Int) : Option Int :=
  if y = 0 ∨ (x = -2147483648 ∧ y = -1) then none else some (x.tmod y)

/-- The `int` quotient `x / y` of C (truncated towards zero); `none` is the
undefined behaviour of a zero divisor or of `INT_MIN / -1`. -/
def cdiv (x y : Int) : Option Int :=
  if y = 0 ∨ (x = -2147483648 ∧ y = -1) then none else some (x.tdiv y)

/-- The function `GCD(n1, n2)`. `none` is undefined behaviour or exhausted fuel. -/
def GCD : Nat → Int → Int → Option Int
  | 0, _, _ => none
  | fuel + 1, n1, n2 =>
    if n2 = 0 then some n1
    else
      match cmod n1 n2 with
      | none => none
      | some r => GCD fuel n2 r

/-- The function `LCM(a, b, multiple)`; `multiple % b` is evaluated only when
`multiple % a == 0`. `none` is undefined behaviour or exhausted fuel. -/
def LCM : Nat → Int → Int → Int → Option Int
  | 0, _, _, _ => none
  | fuel + 1, a, b, multiple =>
    match cmod multiple a with
    | none => none
    | some ra =>
      if ra = 0 then
        match cmod multiple b with
        | none => none
        | some rb =>
          if rb = 0 then some multiple
          else LCM fuel a b (Searching.wrapInt (multiple + 1))
      else LCM fuel a b (Searching.wrapInt (multiple + 1))

/-- The call `pow(2, power)` taken as the exact integer `2 ^ power`; a negative
`power` (a fractional value) is not modelled. -/
def pow2 (power : Int) : Option Int :=
  if 0 ≤ power then some (2 ^ power.toNat) else none

/-- The function `Bin_to_Dec(n, power)`; the `double` arithmetic of the
`return` expression is exact integer arithmetic here. -/
def Bin_to_Dec : Nat → Int → Int → Option Int
  | 0, _, _ => none
  | fuel + 1, n, power =>
    if n = 0 then some 0
    else do
      let d ← cmod n 10
      let p ← pow2 power
      let q ← cdiv n 10
      let rest ← Bin_to_Dec fuel q (Searching.wrapInt (power + 1))
      pure (d * p + rest)

/-- The loop `while (copy_binnum != 0) { copy_binnum /= 10; n_digits++; }`:
the final `n_digits`. -/
def countDigits : Nat → Int → Int → Option Int
  | 0, _, _ => none
  | fuel + 1, copy_binnum, n_digits =>
    if copy_binnum ≠ 0 then do
      let q ← cdiv copy_binnum 10
      countDigits fuel q (Searching.wrapInt (n_digits + 1))
    else some n_digits

/-- The value `gcd` that `main` computes from the input `a`, `b`. -/
def mainGcd (fuel : Nat) (a b : Int) : Option Int :=
  GCD fuel a b

/-- The value `lcm` that `main` computes: `LCM(a, b, (a > b ? a : b))`. -/
def mainLcm (fuel : Nat) (a b : Int) : Option Int :=
  LCM fuel a b (if a > b then a else b)

/-- The value `answer` that `main` computes from the input `binnum`. -/
def mainAnswer (fuel : Nat) (binnum : Int) : Option Int := do
  let n_digits ← countDigits fuel binnum 0
  Bin_to_Dec fuel binnum (Searching.wrapInt (n_digits - 1))

/-- The digits of `binnum` in base 10 read as a numeral in base 2. -/
def binaryValue (binnum : Nat) : Nat :=
  Nat.ofDigits 2 (Nat.digits 10 binnum)

end Recursion

namespace Strings

/-- The result of running a piece of code that reads `char` arrays. -/
inductive Run (α : Type) where
  /-- Normal completion with a value. -/
  | done (a : α)
  /-- An access outside of an array, at the given index. -/
  | outside (index : Int)
  /-- The fuel ran out. -/
  | noFuel
  deriving DecidableEq, Repr

/-- The size of the arrays `char string[100]`, `char str1[100]`, `char str2[100]`. -/
def BUF_SIZE : Nat := 100

/-- A read of the `char` at an `int` index of an array. -/
def readChar (s : List Char) (k : Int) : Run Char :=
  if 0 ≤ k then
    match s[k.toNat]? with
    | some c => Run.done c
    | none => Run.outside k
  else Run.outside k

/-- The call `scanf("%s", buf)` when the next word of the input is `word`: the
word and a terminating NUL are stored at the start of the array. -/
def scanfString (buf word : List Char) : Run (List Char) :=
  if word.length + 1 ≤ buf.length then
    Run.done (word ++ '\x00' :: buf.drop (word.length + 1))
  else Run.outside buf.length

/-- The scan of `strlen` from index `i` on. -/
def strlenFrom (s : List Char) : Nat → Nat → Run Nat
  | 0, _ => Run.noFuel
  | fuel + 1, i =>
    match s[i]? with
    | none => Run.outside i
    | some c => if c = '\x00' then Run.done i else strlenFrom s fuel (i + 1)

/-- The library function `strlen`. -/
def strlen (fuel : Nat) (s : List Char) : Run Nat :=
  strlenFrom s fuel 0

/-- The function `palindrome_check(string, lower, upper)`. -/
def palindrome_check (string : List Char) : Nat → Int → Int → Run Int
  | 0, _, _ => Run.noFuel
  | fuel + 1, lower, upper =>
    if lower = upper then Run.done (-1)
    else
      match readChar string lower with
      | Run.done a =>
        match readChar string upper with
        | Run.done b =>
          if a = b then
            palindrome_check string fuel (Searching.wrapInt (lower + 1))
              (Searching.wrapInt (upper - 1))
          else Run.done 0
        | Run.outside k => Run.outside k
        | Run.noFuel => Run.noFuel
      | Run.outside k => Run.outside k
      | Run.noFuel => Run.noFuel

/-- The program of `q5_string_palindrome_function.c`: its output when the word
read is `word` and the array `string` initially holds `buf`. -/
def palindromeMain (fuel : Nat) (buf word : List Char) : Run String :=
  match scanfString buf word with
  | Run.done string =>
    match strlen fuel string with
    | Run.done len =>
      match palindrome_check string fuel 0 ((len : Int) - 1) with
      | Run.done answer =>
        if answer = -1 then Run.done ("Enter the string: " ++ "The string is a palindrome. ")
        else Run.done ("Enter the string: " ++ "The string is not a palindrome. ")
      | Run.outside k => Run.outside k
      | Run.noFuel => Run.noFuel
    | Run.outside k => Run.outside k
    | Run.noFuel => Run.noFuel
  | Run.outside k => Run.outside k
  | Run.noFuel => Run.noFuel

/-- The text written before the comparison in `q7_equal_strings_using_pointers.c`. -/
def prompts : String :=
  "Enter the two strings: \n" ++ "String 1: " ++ "String 2: "

/-- The loop `while (index <= strlen(str1))` of the comparison program; `p1` and
`p2` are the offsets of the two pointers in `str1` and `str2`. The result is the
text printed after the prompts. -/
def compareLoop (str1 str2 : List Char) (fuel0 : Nat) : Nat → Nat → Nat → Nat → Run String
  | 0, _, _, _ => Run.noFuel
  | fuel + 1, index, p1, p2 =>
    match strlen fuel0 str1 with
    | Run.done len =>
      if index ≤ len then
        match readChar str1 p1 with
        | Run.done a =>
          match readChar str2 p2 with
          | Run.done b =>
            if a = b then compareLoop str1 str2 fuel0 fuel (index + 1) (p1 + 1) (p2 + 1)
            else Run.done "The strings are not equal. "
          | Run.outside k => Run.outside k
          | Run.noFuel => Run.noFuel
        | Run.outside k => Run.outside k
        | Run.noFuel => Run.noFuel
      else Run.done "The strings are equal."
    | Run.outside k => Run.outside k
    | Run.noFuel => Run.noFuel

/-- The program of `q7_equal_strings_using_pointers.c`: its whole output when
the two words read are `word1` and `word2` and the arrays initially hold `buf1`
and `buf2`. -/
def equalMain (fuel : Nat) (buf1 buf2 word1 word2 : List Char) : Run String :=
  match scanfString buf1 word1 with
  | Run.done str1 =>
    match scanfString buf2 word2 with
    | Run.done str2 =>
      match strlen fuel str1 with
      | Run.done len1 =>
        match strlen fuel str2 with
        | Run.done len2 =>
          if len1 ≠ len2 then Run.done (prompts ++ "The strings are not equal. ")
          else
            match compareLoop str1 str2 fuel fuel 0 0 0 with
            | Run.done text => Run.done (prompts ++ text)
            | Run.outside k => Run.outside k
            | Run.noFuel => Run.noFuel
        | Run.outside k => Run.outside k
        | Run.noFuel => Run.noFuel
      | Run.outside k => Run.outside k
      | Run.noFuel => Run.noFuel
    | Run.outside k => Run.outside k
    | Run.noFuel => Run.noFuel
  | Run.outside k => Run.outside k
  | Run.noFuel => Run.noFuel

/-- A string reads the same forwards and backwards. -/
def IsPalindrome (s : List Char) : Prop :=
  s.reverse = s

instance (s : List Char) : Decidable (IsPalindrome s) := by
  unfold IsPalindrome; infer_instance

end Strings

namespace Quadratic

/-- What the program of `q1_quad_eq.c` prints. The `float` variables printed
with `%f` hold `int` values converted to `float`; they are given as integers
(the conversion is exact below `2^24` in absolute value). -/
inductive Report where
  /-- The text `This is not a quadratic equation.` -/
  | notQuadratic
  /-- The case `D > 0`: two roots computed in floating point with `pow(D, 0.5)`,
  not modelled. -/
  | distinct (D : Int)
  /-- The case `D == 0`: the value `r`, printed twice. -/
  | repeated (r : Int)
  /-- The case `D < 0`: printed as `real+imag i` and `real-imag i`. -/
  | complex (real imag : Int)
  deriving DecidableEq, Repr

/-- The program of `q1_quad_eq.c` on the input `a`, `b`, `c`; `int` arithmetic
on 32 bits, `/` truncating. `none` is a division with undefined behaviour. -/
def main (a b c : Int) : Option Report :=
  if a = 0 then some Report.notQuadratic
  else
    let D := Searching.wrapInt
      (Searching.wrapInt (b * b) - Searching.wrapInt (Searching.wrapInt (4 * a) * c))
    if D > 0 then some (Report.distinct D)
    else if D = 0 then do
      let r ← Recursion.cdiv (Searching.wrapInt (-1 * b)) (Searching.wrapInt (2 * a))
      pure (Report.repeated r)
    else do
      let real ← Recursion.cdiv (Searching.wrapInt (-1 * b)) (Searching.wrapInt (2 * a))
      let imag ← Recursion.cdiv D (Searching.wrapInt (2 * a))
      pure (Report.complex real imag)

/-- The complex number `x` is a root of `a x^2 + b x + c`. -/
def IsRoot (a b c : Int) (x : ℂ) : Prop :=
  (a : ℂ) * x ^ 2 + (b : ℂ) * x + (c : ℂ) = 0

end Quadratic

namespace MatrixMul

/-- An array `int [10][10]`, as the function from the two indices to the element. -/
abbrev Mat : Type := Nat → Nat → Int

/-- The number of rows and of columns of the arrays `m1`, `m2`, `answer`. -/
def DIM : Nat := 10

/-- A read `M[i][j]`; `none` is an access outside of the array. -/
def readAt (M : Mat) (i j : Nat) : Option Int :=
  if i < DIM ∧ j < DIM then some (M i j) else none

/-- A write `M[i][j] = v`; `none` is an access outside of the array. -/
def writeAt (M : Mat) (i j : Nat) (v : Int) : Option Mat :=
  if i < DIM ∧ j < DIM then some (fun p q => if p = i ∧ q = j then v else M p q) else none

/-- The loop `for (int i = ...; i < n; i++) body`, from `i` on, on a state of
type `σ`. `none` is a fault in the body or exhausted fuel. -/
def forLoop {σ : Type} (n : Int) (body : Nat → σ → Option σ) : Nat → Nat → σ → Option σ
  | 0, _, _ => none
  | fuel + 1, i, s =>
    if (i : Int) < n then
      match body i s with
      | none => none
      | some s1 => forLoop n body fuel (i + 1) s1
    else some s

/-- The first triple loop: `answer[i][k] = 0`. -/
def zeroLoops (fuel : Nat) (l m n : Int) (answer : Mat) : Option Mat :=
  forLoop l (fun i a1 =>
    forLoop m (fun _ a2 =>
      forLoop n (fun k a3 => writeAt a3 i k 0) fuel 0 a2) fuel 0 a1) fuel 0 answer

/-- The statement `answer[i][k] += (m1[i][j] * m2[j][k]);` on 32 bit `int`. -/
def accumulate (m1 m2 : Mat) (i j k : Nat) (answer : Mat) : Option Mat := do
  let x ← readAt m1 i j
  let y ← readAt m2 j k
  let old ← readAt answer i k
  writeAt answer i k (Searching.wrapInt (old + Searching.wrapInt (x * y)))

/-- The second triple loop. -/
def mulLoops (fuel : Nat) (l m n : Int) (m1 m2 answer : Mat) : Option Mat :=
  forLoop l (fun i a1 =>
    forLoop m (fun j a2 =>
      forLoop n (fun k a3 => accumulate m1 m2 i j k a3) fuel 0 a2) fuel 0 a1) fuel 0 answer

/-- The two triple loops of `main`: the array `answer` they leave, `answer0`
being its indeterminate initial content. -/
def multiply (fuel : Nat) (l m n : Int) (m1 m2 answer0 : Mat) : Option Mat := do
  let zeroed ← zeroLoops fuel l m n answer0
  mulLoops fuel l m n m1 m2 zeroed

/-- The sum of the first `j` products `m1[i][0] * m2[0][k]`, ... in the order
in which the program adds them. -/
def partialDot (m1 m2 : Mat) (i k : Nat) : Nat → Int
  | 0 => 0
  | j + 1 => partialDot m1 m2 i k j + m1 i j * m2 j k

/-- The value fits in a 32 bit `int`. -/
def InInt (x : Int) : Prop :=
  -2147483648 ≤ x ∧ x ≤ 2147483647

instance (x : Int) : Decidable (InInt x) := by
  unfold InInt; infer_instance

/-- No product and no partial sum of the multiplication leaves the `int` range. -/
def NoOverflow (l m n : Nat) (m1 m2 : Mat) : Prop :=
  ∀ i, i < l → ∀ k, k < n → ∀ j, j < m →
    InInt (m1 i j * m2 j k) ∧ InInt (partialDot m1 m2 i k (j + 1))

instance (l m n : Nat) (m1 m2 : Mat) : Decidable (NoOverflow l m n m1 m2) := by
  unfold NoOverflow; infer_instance

/-- The array is zero at the positions selected by `S`. -/
def ZeroOn (S : Nat → Nat → Prop) (a : Mat) : Prop :=
  ∀ p q, S p q → a p q = 0

/-- In the rows below `l` and columns below `n`, the array holds the partial
sums with `cnt p q` products added at position `(p, q)`. -/
def Accumulated (m1 m2 : Mat) (l n : Nat) (cnt : Nat → Nat → Nat) (a : Mat) : Prop :=
  ∀ p q, p < l → q < n → a p q = partialDot m1 m2 p q (cnt p q)

/-- The number of products added at position `(p, q)` when the second triple
loop is at `i`, `j`, `k`. -/
def progress (m i j k : Nat) (p q : Nat) : Nat :=
  if p < i then m else if p = i then (if q < k then j + 1 else j) else 0

/-- A matrix used in the examples: rows `1 2` and `3 4`, zero elsewhere. -/
def sampleMatrix : Mat := fun i j =>
  if i = 0 ∧ j = 0 then 1 else if i = 0 ∧ j = 1 then 2
  else if i = 1 ∧ j = 0 then 3 else if i = 1 ∧ j = 1 then 4 else 0

end MatrixMul

/-! ## 32 bit `int` arithmetic -/

namespace Searching

theorem wrapInt_eq (x : Int) (h1 : -2147483648 ≤ x) (h2 : x < 2147483648) : wrapInt x = x := by
  unfold wrapInt
  omega

/-- Incrementing a wrapped value is wrapping the incremented value. -/
theorem wrapInt_succ (a : Int) : wrapInt (wrapInt a + 1) = wrapInt (a + 1) := by
  unfold wrapInt
  omega

end Searching

/-! ## The line classifier: lemmas -/

namespace LineClassifier

theorem fgetsChars_append (k : Nat) (s : List Char) :
    (fgetsChars k s).1 ++ (fgetsChars k s).2 = s := by
  induction s generalizing k with
  | nil => cases k <;> simp [fgetsChars]
  | cons c s ih =>
    cases k with
    | zero => simp [fgetsChars]
    | succ k =>
      by_cases h : c = '\n'
      · simp [fgetsChars, h]
      · simp [fgetsChars, h, ih]

theorem fgetsChars_ne_nil (k : Nat) (c : Char) (s : List Char) :
    (fgetsChars (k + 1) (c :: s)).1 ≠ [] := by
  by_cases h : c = '\n' <;> simp [fgetsChars, h]

theorem fgetsChars_rest_length (k : Nat) (c : Char) (s : List Char) :
    (fgetsChars (k + 1) (c :: s)).2.length < (c :: s).length := by
  have h1 := fgetsChars_append (k + 1) (c :: s)
  have h2 := fgetsChars_ne_nil k c s
  have h3 := congrArg List.length h1
  rw [List.length_append] at h3
  have h4 : 0 < (fgetsChars (k + 1) (c :: s)).1.length := List.length_pos.mpr h2
  omega

theorem getElem?_past_front (pre : List Char) (x : Char) (rest : List Char) :
    (pre ++ x :: rest)[pre.length]? = some x := by
  rw [List.getElem?_append_right (Nat.le_refl _)]
  simp

theorem skipBlanks_buffer (chunk pre stale : List Char) (fuel : Nat)
    (hf : chunk.length < fuel) :
    skipBlanks (pre ++ (chunk ++ '\x00' :: stale)) fuel pre.length =
      some (pre.length + (chunk.takeWhile (fun c => c = ' ' ∨ c = '\t')).length) := by
  induction chunk generalizing pre fuel with
  | nil =>
    cases fuel with
    | zero => simp at hf
    | succ f =>
      simp only [skipBlanks, List.nil_append, getElem?_past_front]
      simp
  | cons c t ih =>
    cases fuel with
    | zero => simp at hf
    | succ f =>
      have hf1 : t.length < f := by simpa using hf
      simp only [skipBlanks, List.cons_append, getElem?_past_front]
      by_cases h : c = ' ' ∨ c = '\t'
      · have hh := ih (pre ++ [c]) f hf1
        simp only [List.append_assoc, List.singleton_append, List.length_append,
          List.length_singleton] at hh
        simp only [h, if_true, hh, List.takeWhile, decide_True, List.length_cons]
        congr 1
        omega
      · simp [h]

theorem getElem?_takeWhile_length (p : Char → Bool) (x : Char) (chunk stale : List Char) :
    (chunk ++ x :: stale)[(chunk.takeWhile p).length]? =
      some (((chunk.dropWhile p).head?).getD x) := by
  induction chunk with
  | nil => simp
  | cons c t ih =>
    by_cases h : p c
    · simp [List.takeWhile, List.dropWhile, h, ih]
    · simp [List.takeWhile, List.dropWhile, h]

theorem isBlank_buffer (chunk stale : List Char) :
    isBlank (chunk ++ '\x00' :: stale) = some (chunkBlank chunk) := by
  have h := skipBlanks_buffer chunk [] stale ((chunk ++ '\x00' :: stale).length + 1)
    (by simp; omega)
  simp only [List.nil_append, List.length_nil, Nat.zero_add] at h
  unfold isBlank
  rw [h]
  simp only [getElem?_takeWhile_length]
  rfl

theorem isComment_buffer (chunk stale : List Char) (hne : chunk ≠ []) :
    isComment (chunk ++ '\x00' :: stale) = some (chunkComment chunk) := by
  match chunk, hne with
  | [c], _ => by_cases h : c = '/' <;> simp [isComment, chunkComment, h]
  | c :: d :: t, _ => by_cases h : c = '/' <;> simp [isComment, chunkComment, h]

theorem chunk_not_both (chunk : List Char) :
    ¬ (chunkBlank chunk = true ∧ chunkComment chunk = true) := by
  rintro ⟨hb, hc⟩
  simp only [chunkComment, decide_eq_true_eq] at hc
  match chunk, hc with
  | a :: b :: t, hc =>
    simp only [List.take, List.cons.injEq, and_true] at hc
    obtain ⟨rfl, rfl⟩ := hc
    revert hb
    simp [chunkBlank, stripLeading, List.dropWhile]

/-- The body of the loop in closed form: on a non-empty stream it never faults. -/
theorem loopBody_cons (st : LoopState) (c : Char) (s : List Char) (h : st.records = c :: s) :
    loopBody st = Step.next
      { records := (fgetsChars (LINE_SIZE - 1) (c :: s)).2
        line := (fgetsChars (LINE_SIZE - 1) (c :: s)).1 ++
          '\x00' :: st.line.drop ((fgetsChars (LINE_SIZE - 1) (c :: s)).1.length + 1)
        lines := Searching.wrapInt (st.lines + 1)
        bl_lines := if chunkBlank (fgetsChars (LINE_SIZE - 1) (c :: s)).1
          then Searching.wrapInt (st.bl_lines + 1) else st.bl_lines
        comments := if chunkComment (fgetsChars (LINE_SIZE - 1) (c :: s)).1
          then Searching.wrapInt (st.comments + 1) else st.comments } := by
  have hne : (fgetsChars (LINE_SIZE - 1) (c :: s)).1 ≠ [] := fgetsChars_ne_nil 998 c s
  unfold loopBody fgets
  rw [h]
  simp only [isBlank_buffer, isComment_buffer _ _ hne]

theorem loopBody_nil (st : LoopState) (h : st.records = []) : loopBody st = Step.eof := by
  simp [loopBody, fgets, h]

theorem textLines_eq_nil (s : List Char) (h : textLines s = []) : s = [] := by
  cases s with
  | nil => rfl
  | cons c s =>
    by_cases hc : c = '\n'
    · simp [textLines, hc] at h
    · cases hs : textLines s <;> simp [textLines, hc, hs] at h

theorem fgetsChars_nil (k : Nat) : fgetsChars k [] = ([], []) := by
  cases k <;> rfl

/-- When the first line of the stream fits, `fgets` stores exactly that line. -/
theorem fgetsChars_first_line (s : List Char) (k : Nat) (l : List Char)
    (ls : List (List Char)) (h : textLines s = l :: ls) (hk : l.length ≤ k) :
    (fgetsChars k s).1 = l ∧ textLines (fgetsChars k s).2 = ls := by
  induction s generalizing k l ls with
  | nil => simp [textLines] at h
  | cons c s ih =>
    by_cases hc : c = '\n'
    · simp only [textLines, hc, if_true, List.cons.injEq] at h
      obtain ⟨rfl, rfl⟩ := h
      cases k with
      | zero => simp at hk
      | succ k => simp [fgetsChars, hc]
    · cases hs : textLines s with
      | nil =>
        simp only [textLines, hc, if_false, hs, List.cons.injEq] at h
        obtain ⟨rfl, rfl⟩ := h
        have hnil := textLines_eq_nil s hs
        subst hnil
        cases k with
        | zero => simp at hk
        | succ k => simp [fgetsChars, hc, fgetsChars_nil, textLines]
      | cons l1 ls1 =>
        simp only [textLines, hc, if_false, hs, List.cons.injEq] at h
        obtain ⟨rfl, rfl⟩ := h
        cases k with
        | zero => simp at hk
        | succ k =>
          have hk1 : l1.length ≤ k := by simpa using hk
          obtain ⟨h1, h2⟩ := ih k l1 ls1 hs hk1
          simp [fgetsChars, hc, h1, h2]

theorem textLines_length_le (s : List Char) : (textLines s).length ≤ s.length := by
  induction s with
  | nil => simp [textLines]
  | cons c s ih =>
    by_cases hc : c = '\n'
    · simp [textLines, hc]; exact ih
    · cases hs : textLines s with
      | nil => simp [textLines, hc, hs]
      | cons l ls =>
        rw [hs] at ih
        simp only [textLines, hc, if_false, hs, List.length_cons] at ih ⊢
        omega

theorem mem_of_mem_textLines (s : List Char) :
    ∀ l ∈ textLines s, ∀ c ∈ l, c ∈ s := by
  induction s with
  | nil => simp [textLines]
  | cons c s ih =>
    intro l hl x hx
    by_cases hc : c = '\n'
    · simp only [textLines, hc, if_true, List.mem_cons] at hl
      rcases hl with rfl | hl
      · simp at hx; simp [hx, hc]
      · exact List.mem_cons_of_mem _ (ih l hl x hx)
    · cases hs : textLines s with
      | nil =>
        simp only [textLines, hc, if_false, hs, List.mem_singleton] at hl
        subst hl
        simp at hx; simp [hx]
      | cons l1 ls =>
        rw [hs] at ih
        simp only [textLines, hc, if_false, hs, List.mem_cons] at hl
        rcases hl with rfl | hl
        · rcases List.mem_cons.mp hx with rfl | hx1
          · simp
          · exact List.mem_cons_of_mem _ (ih l1 (by simp) x hx1)
        · exact List.mem_cons_of_mem _ (ih l (by simp [hl]) x hx)

/-- The loop always terminates, having consumed the whole stream. -/
theorem readLoop_total (fuel : Nat) (st : LoopState) (hf : st.records.length < fuel) :
    ∃ st1, readLoop fuel st = some st1 ∧ st1.records = [] := by
  induction fuel generalizing st with
  | zero => simp at hf
  | succ f ih =>
    cases hs : st.records with
    | nil => exact ⟨st, by simp [readLoop, loopBody_nil st hs], hs⟩
    | cons c s =>
      simp only [readLoop, loopBody_cons st c s hs]
      apply ih
      have : (fgetsChars (LINE_SIZE - 1) (c :: s)).2.length < (c :: s).length :=
        fgetsChars_rest_length 998 c s
      rw [hs] at hf
      simp only [List.length_cons] at hf this ⊢
      omega

/-- The state after one iteration per line when every remaining line fits in
the buffer: each counter is the 32 bit value of its count. The counters on
entry are given as the 32 bit values of `a`, `b`, `c`. -/
theorem afterIterations_shortLines (L : List (List Char)) (st : LoopState)
    (hL : textLines st.records = L) (hshort : ∀ l ∈ L, l.length ≤ LINE_SIZE - 1) :
    ∃ st1, afterIterations L.length st = some st1 ∧ st1.records = [] ∧
      (∀ a : Int, st.lines = Searching.wrapInt a →
        st1.lines = Searching.wrapInt (a + (L.length : Int))) ∧
      (∀ b : Int, st.bl_lines = Searching.wrapInt b →
        st1.bl_lines = Searching.wrapInt (b + (L.countP chunkBlank : Int))) ∧
      (∀ c : Int, st.comments = Searching.wrapInt c →
        st1.comments = Searching.wrapInt (c + (L.countP chunkComment : Int))) := by
  induction L generalizing st with
  | nil =>
    have hs := textLines_eq_nil _ hL
    refine ⟨st, rfl, hs, ?_, ?_, ?_⟩ <;> intro a ha <;> simpa using ha
  | cons l ls ih =>
    cases hs : st.records with
    | nil => rw [hs] at hL; simp [textLines] at hL
    | cons c s =>
      rw [hs] at hL
      obtain ⟨h1, h2⟩ := fgetsChars_first_line (c :: s) (LINE_SIZE - 1) l ls hL
        (hshort l (by simp))
      simp only [List.length_cons, afterIterations, loopBody_cons st c s hs, h1, h2]
      obtain ⟨st1, hr, hnil, hlines, hbl, hcm⟩ := ih
        { records := (fgetsChars (LINE_SIZE - 1) (c :: s)).2
          line := l ++ '\x00' :: st.line.drop (l.length + 1)
          lines := Searching.wrapInt (st.lines + 1)
          bl_lines := if chunkBlank l then Searching.wrapInt (st.bl_lines + 1) else st.bl_lines
          comments := if chunkComment l then Searching.wrapInt (st.comments + 1)
            else st.comments }
        h2 (fun x hx => hshort x (List.mem_cons_of_mem _ hx))
      refine ⟨st1, hr, hnil, ?_, ?_, ?_⟩
      · intro a ha
        have := hlines (a + 1) (by simp only [ha, Searching.wrapInt_succ])
        rw [this]
        congr 1
        push_cast
        ring
      · intro b hb0
        rw [List.countP_cons]
        by_cases hb : chunkBlank l = true
        · have := hbl (b + 1) (by simp only [hb, if_true, hb0, Searching.wrapInt_succ])
          rw [this]
          congr 1
          simp only [hb, if_true]
          push_cast
          ring
        · have := hbl b (by simp only [hb, hb0]; rfl)
          rw [this]
          congr 1
          simp [hb]
      · intro c0 hc0
        rw [List.countP_cons]
        by_cases hb : chunkComment l = true
        · have := hcm (c0 + 1) (by simp only [hb, if_true, hc0, Searching.wrapInt_succ])
          rw [this]
          congr 1
          simp only [hb, if_true]
          push_cast
          ring
        · have := hcm c0 (by simp only [hb, hc0]; rfl)
          rw [this]
          congr 1
          simp [hb]

/-- When the state after `k` iterations has nothing left to read, the loop ends
in that state, for any fuel above `k`. -/
theorem readLoop_of_afterIterations (k : Nat) :
    ∀ (st st1 : LoopState) (fuel : Nat), afterIterations k st = some st1 →
      st1.records = [] → k < fuel → readLoop fuel st = some st1 := by
  induction k with
  | zero =>
    intro st st1 fuel h hnil hf
    simp only [afterIterations, Option.some.injEq] at h
    subst h
    cases fuel with
    | zero => omega
    | succ f => simp [readLoop, loopBody_nil st hnil]
  | succ k ih =>
    intro st st1 fuel h hnil hf
    cases fuel with
    | zero => omega
    | succ f =>
      cases hb : loopBody st with
      | eof => simp [afterIterations, hb] at h
      | fault => simp [afterIterations, hb] at h
      | next st2 =>
        simp only [afterIterations, hb] at h
        simp only [readLoop, hb]
        exact ih st2 st1 f h hnil (by omega)

/-- The counters at the end of the loop when every remaining line fits in the
buffer: one `fgets` result per line, each counter the 32 bit value of its
count. -/
theorem readLoop_shortLines (L : List (List Char)) (st : LoopState) (fuel : Nat)
    (hL : textLines st.records = L) (hshort : ∀ l ∈ L, l.length ≤ LINE_SIZE - 1)
    (hf : L.length < fuel) :
    ∃ st1, readLoop fuel st = some st1 ∧ st1.records = [] ∧
      (∀ a : Int, st.lines = Searching.wrapInt a →
        st1.lines = Searching.wrapInt (a + (L.length : Int))) ∧
      (∀ b : Int, st.bl_lines = Searching.wrapInt b →
        st1.bl_lines = Searching.wrapInt (b + (L.countP chunkBlank : Int))) ∧
      (∀ c : Int, st.comments = Searching.wrapInt c →
        st1.comments = Searching.wrapInt (c + (L.countP chunkComment : Int))) := by
  obtain ⟨st1, hr, hnil, h⟩ := afterIterations_shortLines L st hL hshort
  exact ⟨st1, readLoop_of_afterIterations L.length st st1 fuel hr hnil hf, hnil, h⟩

/-- On a line without NUL the blank test of the code is the blank line of the
specification. -/
theorem chunkBlank_iff (l : List Char) (h0 : '\x00' ∉ l) :
    chunkBlank l = true ↔ BlankLine l := by
  induction l with
  | nil => simp [chunkBlank, BlankLine, stripLeading, lineContent]
  | cons c t ih =>
    have h0t : '\x00' ∉ t := fun h => h0 (List.mem_cons_of_mem _ h)
    have hc0 : c ≠ '\x00' := fun h => h0 (by simp [h])
    have ih1 := ih h0t
    simp only [chunkBlank, BlankLine, stripLeading, lineContent, decide_eq_true_eq] at ih1 ⊢
    by_cases hn : c = '\n'
    · subst hn
      simp [List.dropWhile, List.takeWhile]
    · by_cases hw : c = ' ' ∨ c = '\t'
      · simp only [List.takeWhile, hn, ne_eq, not_false_eq_true, decide_True, List.dropWhile, hw]
        exact ih1
      · simp [List.takeWhile, hn, List.dropWhile, hw, hc0]

theorem chunkComment_iff (l : List Char) : chunkComment l = true ↔ CommentLine l := by
  simp [chunkComment, CommentLine]

/-- How `fgets` runs through a prefix without newline that fits. -/
theorem fgetsChars_run (l r : List Char) (k : Nat) (hl : '\n' ∉ l) (hk : l.length ≤ k) :
    fgetsChars k (l ++ r) =
      (l ++ (fgetsChars (k - l.length) r).1, (fgetsChars (k - l.length) r).2) := by
  induction l generalizing k with
  | nil => simp
  | cons c t ih =>
    have hc : c ≠ '\n' := fun h => hl (by simp [h])
    have ht : '\n' ∉ t := fun h => hl (List.mem_cons_of_mem _ h)
    cases k with
    | zero => simp at hk
    | succ k =>
      have hk1 : t.length ≤ k := by simpa using hk
      simp [fgetsChars, hc, ih k ht hk1]

theorem textLines_no_newline (l : List Char) (hl : '\n' ∉ l) (hne : l ≠ []) :
    textLines l = [l] := by
  induction l with
  | nil => exact absurd rfl hne
  | cons c t ih =>
    have hc : c ≠ '\n' := fun h => hl (by simp [h])
    have ht : '\n' ∉ t := fun h => hl (List.mem_cons_of_mem _ h)
    cases t with
    | nil => simp [textLines, hc]
    | cons d u =>
      have h1 := ih ht (by simp)
      rw [textLines, if_neg hc, h1]

theorem isBlank_isComment_exclusive (line : List Char) :
    ¬ (isBlank line = some true ∧ isComment line = some true) := by
  rintro ⟨hb, hc⟩
  match line with
  | [] => simp [isComment] at hc
  | [a] =>
    by_cases ha : a = '/' <;> simp [isComment, ha] at hc
  | a :: b :: t =>
    by_cases ha : a = '/'
    · subst ha
      simp [isBlank, skipBlanks] at hb
    · simp [isComment, ha] at hc

/-- One iteration while `lines` is below `INT_MAX`: `lines` grows by one and
the other two counters stay non-negative with a sum of at most `lines`. -/
theorem loopBody_invariant (st st1 : LoopState) (h : loopBody st = Step.next st1)
    (hmax : st.lines < 2147483647) (hb0 : 0 ≤ st.bl_lines) (hc0 : 0 ≤ st.comments)
    (hinv : st.bl_lines + st.comments ≤ st.lines) :
    st1.lines = st.lines + 1 ∧ 0 ≤ st1.bl_lines ∧ 0 ≤ st1.comments ∧
      st1.bl_lines + st1.comments ≤ st1.lines := by
  cases hs : st.records with
  | nil => rw [loopBody_nil st hs] at h; cases h
  | cons c s =>
    rw [loopBody_cons st c s hs] at h
    injection h with h
    subst h
    have hx := chunk_not_both (fgetsChars (LINE_SIZE - 1) (c :: s)).1
    have hl : Searching.wrapInt (st.lines + 1) = st.lines + 1 :=
      Searching.wrapInt_eq _ (by omega) (by omega)
    have hb1 : Searching.wrapInt (st.bl_lines + 1) = st.bl_lines + 1 :=
      Searching.wrapInt_eq _ (by omega) (by omega)
    have hc1 : Searching.wrapInt (st.comments + 1) = st.comments + 1 :=
      Searching.wrapInt_eq _ (by omega) (by omega)
    simp only [hl, hb1, hc1]
    by_cases hb : chunkBlank (fgetsChars (LINE_SIZE - 1) (c :: s)).1 = true
    · by_cases hc : chunkComment (fgetsChars (LINE_SIZE - 1) (c :: s)).1 = true
      · exact absurd ⟨hb, hc⟩ hx
      · simp only [hb, hc, if_true]
        refine ⟨trivial, ?_, ?_, ?_⟩ <;> first | omega | (simp; omega)
    · by_cases hc : chunkComment (fgetsChars (LINE_SIZE - 1) (c :: s)).1 = true
      · simp only [hb, hc, if_true]
        refine ⟨trivial, ?_, ?_, ?_⟩ <;> first | omega | (simp; omega)
      · simp only [hb, hc]
        refine ⟨trivial, ?_, ?_, ?_⟩ <;> first | omega | (simp; omega)

/-- The first `INT_MAX` iterations: `lines` counts them and the other two
counters stay non-negative with a sum of at most `lines`. -/
theorem afterIterations_invariant (k : Nat) (st0 st : LoopState)
    (h : afterIterations k st0 = some st)
    (hmax : st0.lines + (k : Int) ≤ 2147483647) (hb0 : 0 ≤ st0.bl_lines)
    (hc0 : 0 ≤ st0.comments) (hinv : st0.bl_lines + st0.comments ≤ st0.lines) :
    st.lines = st0.lines + (k : Int) ∧ 0 ≤ st.bl_lines ∧ 0 ≤ st.comments ∧
      st.bl_lines + st.comments ≤ st.lines := by
  induction k generalizing st0 with
  | zero =>
    simp only [afterIterations, Option.some.injEq] at h
    subst h
    exact ⟨by simp, hb0, hc0, hinv⟩
  | succ k ih =>
    cases hb : loopBody st0 with
    | eof => simp [afterIterations, hb] at h
    | fault => simp [afterIterations, hb] at h
    | next st1 =>
      simp only [afterIterations, hb] at h
      have hk : ((k + 1 : Nat) : Int) = (k : Int) + 1 := by push_cast; ring
      rw [hk] at hmax ⊢
      obtain ⟨h1, h2, h3, h4⟩ := loopBody_invariant st0 st1 hb (by omega) hb0 hc0 hinv
      obtain ⟨g1, g2, g3, g4⟩ := ih st1 h (by omega) h2 h3 h4
      exact ⟨by omega, g2, g3, g4⟩

/-- Each iteration reads at least one character: there are at most as many
iterations as characters. -/
theorem iterations_le_length (k : Nat) (st0 st : LoopState)
    (h : afterIterations k st0 = some st) :
    k + st.records.length ≤ st0.records.length := by
  induction k generalizing st0 with
  | zero =>
    simp only [afterIterations, Option.some.injEq] at h
    subst h
    omega
  | succ k ih =>
    cases hs : st0.records with
    | nil => simp [afterIterations, loopBody_nil st0 hs] at h
    | cons c s =>
      simp only [afterIterations, loopBody_cons st0 c s hs] at h
      have h1 := ih _ h
      have h2 : (fgetsChars (LINE_SIZE - 1) (c :: s)).2.length < (c :: s).length :=
        fgetsChars_rest_length 998 c s
      simp only [List.length_cons] at h1 h2 ⊢
      omega

end LineClassifier

namespace LineClassifier

theorem readLoop_next (f : Nat) (st st1 : LoopState) (h : loopBody st = Step.next st1) :
    readLoop (f + 1) st = readLoop f st1 := by
  simp [readLoop, h]

theorem readLoop_eof (f : Nat) (st : LoopState) (h : loopBody st = Step.eof) :
    readLoop (f + 1) st = some st := by
  simp [readLoop, h]

theorem loopBody_lines (st : LoopState) (c : Char) (s : List Char) (h : st.records = c :: s) :
    ∃ st1, loopBody st = Step.next st1 ∧ st1.lines = Searching.wrapInt (st.lines + 1) ∧
      st1.records = (fgetsChars (LINE_SIZE - 1) (c :: s)).2 :=
  ⟨_, loopBody_cons st c s h, rfl, rfl⟩

theorem not_newline_mem_replicate (n : Nat) : '\n' ∉ List.replicate n 'a' := by
  intro h
  have := List.eq_of_mem_replicate h
  revert this
  decide

/-- A run of `k + 1` characters `a`: `fgets` with room for `k` characters stores
the first `k` and leaves one. -/
theorem fgetsChars_replicate (k : Nat) :
    fgetsChars k (List.replicate (k + 1) 'a') = (List.replicate k 'a', ['a']) := by
  rw [List.replicate_succ',
    fgetsChars_run _ _ _ (not_newline_mem_replicate k) (by simp)]
  simp [fgetsChars]

end LineClassifier

namespace LineClassifier

theorem textLines_line (body s : List Char) (hb : '\n' ∉ body) :
    textLines (body ++ '\n' :: s) = (body ++ ['\n']) :: textLines s := by
  induction body with
  | nil => simp [textLines]
  | cons c t ih =>
    have hc : c ≠ '\n' := fun h => hb (by simp [h])
    have ht : '\n' ∉ t := fun h => hb (List.mem_cons_of_mem _ h)
    rw [List.cons_append, textLines, if_neg hc, ih ht]
    rfl

/-- A text made of `n` copies of one newline-terminated line has these `n`
lines. -/
theorem textLines_copies (body : List Char) (hb : '\n' ∉ body) (n : Nat) :
    textLines (List.replicate n (body ++ ['\n'])).flatten =
      List.replicate n (body ++ ['\n']) := by
  induction n with
  | zero => rfl
  | succ n ih =>
    rw [List.replicate_succ, List.flatten_cons, List.append_assoc, List.singleton_append,
      textLines_line body _ hb, ih]

theorem textLines_newlines (n : Nat) :
    textLines (List.replicate n '\n') = List.replicate n ['\n'] := by
  induction n with
  | zero => rfl
  | succ n ih =>
    rw [List.replicate_succ, List.replicate_succ, textLines, if_pos rfl, ih]

theorem wrapInt_zero : (0 : Int) = Searching.wrapInt 0 := by
  decide

/-- The counters after one iteration per line of a text whose lines fit in the
buffer, and at the end of the loop: the 32 bit values of the number of lines, of
the number of lines that pass the blank test, and of the number of lines that
pass the comment test. -/
theorem counts_shortLines (text buf : List Char) (L : List (List Char))
    (hL : textLines text = L) (hshort : ∀ l ∈ L, l.length ≤ LINE_SIZE - 1) :
    ∃ st, afterIterations L.length (initState text buf) = some st ∧
      (∀ fuel, L.length < fuel → readLoop fuel (initState text buf) = some st) ∧
      st.records = [] ∧
      st.lines = Searching.wrapInt (L.length : Int) ∧
      st.bl_lines = Searching.wrapInt (L.countP chunkBlank : Int) ∧
      st.comments = Searching.wrapInt (L.countP chunkComment : Int) := by
  obtain ⟨st, hr, hnil, h1, h2, h3⟩ :=
    afterIterations_shortLines L (initState text buf) hL hshort
  refine ⟨st, hr, fun fuel hf => readLoop_of_afterIterations L.length _ st fuel hr hnil hf,
    hnil, ?_, ?_, ?_⟩
  · simpa using h1 0 wrapInt_zero
  · simpa using h2 0 wrapInt_zero
  · simpa using h3 0 wrapInt_zero

theorem blank_count_eq (text : List Char) (hnul : '\x00' ∉ text) :
    (textLines text).countP chunkBlank =
      (textLines text).countP (fun l => decide (BlankLine l)) := by
  apply List.countP_congr
  intro l hl
  have h0 : '\x00' ∉ l := fun h => hnul (mem_of_mem_textLines text l hl _ h)
  simp [chunkBlank_iff l h0]

theorem comment_count_eq (L : List (List Char)) :
    L.countP chunkComment = L.countP (fun l => decide (CommentLine l)) := by
  apply List.countP_congr
  intro l _
  simp [chunkComment_iff l]

theorem short_of_copies (l : List Char) (n : Nat) (h : l.length ≤ LINE_SIZE - 1) :
    ∀ x ∈ List.replicate n l, x.length ≤ LINE_SIZE - 1 := by
  intro x hx
  rw [List.eq_of_mem_replicate hx]
  exact h

end LineClassifier

/-! ## The line classifier: the claims -/

namespace LineClassifier

/-- A single line of 1000 characters `a` (no newline) is one line of the input,
but `fgets` delivers it in two pieces (999 characters and 1 character), so the
loop ends with `lines = 2`. -/
theorem lines_counter_long_line :
    (readLoop 1001 (initState (List.replicate 1000 'a') (List.replicate 1000 'x'))).map
        LoopState.lines = some 2 ∧
      (textLines (List.replicate 1000 'a')).length = 1 := by
  have hsplit : List.replicate 1000 'a' = 'a' :: List.replicate 999 'a' :=
    List.replicate_succ 'a' 999
  constructor
  · obtain ⟨st1, hb1, hl1, hs1⟩ :=
      loopBody_lines (initState (List.replicate 1000 'a') (List.replicate 1000 'x')) 'a'
        (List.replicate 999 'a') hsplit
    have hc1 : fgetsChars (LINE_SIZE - 1) ('a' :: List.replicate 999 'a') =
        (List.replicate 999 'a', ['a']) := by
      rw [← hsplit]
      exact fgetsChars_replicate 999
    rw [hc1] at hs1
    obtain ⟨st2, hb2, hl2, hs2⟩ := loopBody_lines st1 'a' [] hs1
    have hc2 : fgetsChars (LINE_SIZE - 1) ['a'] = (['a'], []) := by decide
    rw [hc2] at hs2
    rw [readLoop_next 1000 _ st1 hb1, readLoop_next 999 _ st2 hb2,
      readLoop_eof 998 st2 (loopBody_nil st2 hs2)]
    simp only [Option.map_some', hl2, hl1, initState]
    decide
  · rw [textLines_no_newline _ (not_newline_mem_replicate 1000)
      (by rw [hsplit]; exact List.cons_ne_nil _ _)]
    rfl

/-- A text of `2^31` newlines has `2^31` lines, all of at most 999 characters,
but the `int` counter `lines` wraps at its `2^31`-th increment and ends at
`-2^31`. -/
theorem lines_counter_overflow :
    ShortLines (List.replicate 2147483648 '\n') ∧
      (readLoop 2147483649
        (initState (List.replicate 2147483648 '\n') (List.replicate 1000 'x'))).map
        LoopState.lines = some (-2147483648) ∧
      (textLines (List.replicate 2147483648 '\n')).length = 2147483648 := by
  have hL := textLines_newlines 2147483648
  have hshort := short_of_copies ['\n'] 2147483648 (by decide)
  obtain ⟨st, _, hrun, _, hlines, _, _⟩ :=
    counts_shortLines (List.replicate 2147483648 '\n') (List.replicate 1000 'x') _ hL hshort
  refine ⟨?_, ?_, ?_⟩
  · unfold ShortLines
    rw [hL]
    exact hshort
  · rw [hrun 2147483649 (by rw [List.length_replicate]; decide)]
    rw [List.length_replicate] at hlines
    rw [Option.map_some', hlines]
    decide
  · rw [hL, List.length_replicate]

/-- C1, as stated, fails in two ways. A line of 1000 characters is counted
twice, because `fgets` delivers it in two pieces. And on a text of `2^31`
newlines, whose lines are all short, the `int` counter `lines` has wrapped to
`-2^31` at the end of the loop. -/
theorem lines_counter_fails :
    ((readLoop 1001 (initState (List.replicate 1000 'a') (List.replicate 1000 'x'))).map
        LoopState.lines = some 2 ∧
      (textLines (List.replicate 1000 'a')).length = 1) ∧
    (ShortLines (List.replicate 2147483648 '\n') ∧
      (readLoop 2147483649
        (initState (List.replicate 2147483648 '\n') (List.replicate 1000 'x'))).map
        LoopState.lines = some (-2147483648) ∧
      (textLines (List.replicate 2147483648 '\n')).length = 2147483648) :=
  ⟨lines_counter_long_line, lines_counter_overflow⟩

/-- C1 (amended): when every line of the input, its newline included, is at most
999 characters long and the input has fewer than `2^31` lines, the read loop
terminates having consumed the whole input, and `lines` is the number of lines
of the input (0 for the empty input). -/
theorem lines_counter_short_lines (text buf : List Char) (fuel : Nat)
    (hshort : ShortLines text) (hcount : (textLines text).length ≤ 2147483647)
    (hfuel : text.length < fuel) :
    ∃ st, readLoop fuel (initState text buf) = some st ∧ st.records = [] ∧
      st.lines = ((textLines text).length : Int) ∧ (text = [] → st.lines = 0) := by
  obtain ⟨st, _, hrun, hnil, hlines, _, _⟩ :=
    counts_shortLines text buf (textLines text) rfl hshort
  have hv : st.lines = ((textLines text).length : Int) := by
    rw [hlines]
    exact Searching.wrapInt_eq _ (by omega) (by omega)
  refine ⟨st, hrun fuel (Nat.lt_of_le_of_lt (textLines_length_le text) hfuel), hnil, hv, ?_⟩
  intro h
  subst h
  simpa [textLines] using hv

theorem lines_counter_short_lines_witness :
    ShortLines "ab\n\ncd".toList ∧ (textLines "ab\n\ncd".toList).length ≤ 2147483647 ∧
      ∃ st, readLoop 7 (initState "ab\n\ncd".toList []) = some st ∧ st.records = [] ∧
        st.lines = ((textLines "ab\n\ncd".toList).length : Int) ∧
        ("ab\n\ncd".toList = [] → st.lines = 0) :=
  ⟨by decide, by decide,
    lines_counter_short_lines "ab\n\ncd".toList [] 7 (by decide) (by decide) (by decide)⟩

/-- The loop evaluated on the empty input and on the inputs of the
specification: 0, 4, 4 and 1 lines. -/
theorem lines_counter_examples :
    (readLoop 1 (initState [] [])).map LoopState.lines = some 0 ∧
      (readLoop 9 (initState "\n\n   \n\t\n".toList [])).map LoopState.lines = some 4 ∧
      (readLoop 30 (initState "// a comment\ncode();\n\nint x;\n".toList [])).map
        LoopState.lines = some 4 ∧
      (readLoop 25 (initState "    // indented comment\n".toList [])).map
        LoopState.lines = some 1 := by
  decide

/-- C2, as stated, fails: a text of `2^31` newlines has no NUL, lines of one
character, and `2^31` blank lines, but the `int` counter `bl_lines` wraps at its
`2^31`-th increment and ends at `-2^31`. -/
theorem blank_counter_overflow :
    '\x00' ∉ List.replicate 2147483648 '\n' ∧
      ShortLines (List.replicate 2147483648 '\n') ∧
      (readLoop 2147483649
        (initState (List.replicate 2147483648 '\n') (List.replicate 1000 'x'))).map
        LoopState.bl_lines = some (-2147483648) ∧
      (textLines (List.replicate 2147483648 '\n')).countP (fun l => decide (BlankLine l)) =
        2147483648 := by
  have hL := textLines_newlines 2147483648
  have hshort := short_of_copies ['\n'] 2147483648 (by decide)
  have hnul : '\x00' ∉ List.replicate 2147483648 '\n' := by
    intro h
    have := List.eq_of_mem_replicate h
    revert this
    decide
  have hcount : (List.replicate 2147483648 ['\n']).countP chunkBlank = 2147483648 := by
    rw [List.countP_replicate, if_pos (by decide)]
  obtain ⟨st, _, hrun, _, _, hbl, _⟩ :=
    counts_shortLines (List.replicate 2147483648 '\n') (List.replicate 1000 'x') _ hL hshort
  refine ⟨hnul, ?_, ?_, ?_⟩
  · unfold ShortLines
    rw [hL]
    exact hshort
  · rw [hrun 2147483649 (by rw [List.length_replicate]; decide)]
    rw [hcount] at hbl
    rw [Option.map_some', hbl]
    decide
  · rw [← blank_count_eq _ hnul, hL, hcount]

/-- C2 (amended): for a text without NUL whose lines, newline included, are at
most 999 characters long and which has fewer than `2^31` blank lines, the loop
terminates and the final `bl_lines` is the number of lines whose content is
empty after stripping leading spaces and tabs. -/
theorem blank_counter_short_lines (text buf : List Char) (fuel : Nat)
    (hnul : '\x00' ∉ text) (hshort : ShortLines text)
    (hcount : (textLines text).countP (fun l => decide (BlankLine l)) ≤ 2147483647)
    (hfuel : text.length < fuel) :
    ∃ st, readLoop fuel (initState text buf) = some st ∧ st.records = [] ∧
      st.bl_lines = ((textLines text).countP (fun l => decide (BlankLine l)) : Int) := by
  obtain ⟨st, _, hrun, hnil, _, hbl, _⟩ :=
    counts_shortLines text buf (textLines text) rfl hshort
  refine ⟨st, hrun fuel (Nat.lt_of_le_of_lt (textLines_length_le text) hfuel), hnil, ?_⟩
  rw [hbl, blank_count_eq text hnul]
  exact Searching.wrapInt_eq _ (by omega) (by omega)

theorem blank_counter_short_lines_witness :
    '\x00' ∉ "\n\n   \n\t\n".toList ∧ ShortLines "\n\n   \n\t\n".toList ∧
      (textLines "\n\n   \n\t\n".toList).countP (fun l => decide (BlankLine l)) ≤
        2147483647 ∧
      ∃ st, readLoop 9 (initState "\n\n   \n\t\n".toList []) = some st ∧ st.records = [] ∧
        st.bl_lines =
          ((textLines "\n\n   \n\t\n".toList).countP (fun l => decide (BlankLine l)) : Int) :=
  ⟨by decide, by decide, by decide,
    blank_counter_short_lines "\n\n   \n\t\n".toList [] 9 (by decide) (by decide) (by decide)
      (by decide)⟩

/-- The two inputs named in C2 evaluated: 4 blank lines and 1 blank line. -/
theorem blank_counter_examples :
    (readLoop 9 (initState "\n\n   \n\t\n".toList [])).map LoopState.bl_lines = some 4 ∧
      (textLines "\n\n   \n\t\n".toList).countP (fun l => decide (BlankLine l)) = 4 ∧
      (readLoop 30 (initState "// a comment\ncode();\n\nint x;\n".toList [])).map
        LoopState.bl_lines = some 1 ∧
      (textLines "// a comment\ncode();\n\nint x;\n".toList).countP
        (fun l => decide (BlankLine l)) = 1 := by
  decide

/-- C3, as stated, fails: a text of `2^31` lines `//` has no NUL, lines of three
characters, and `2^31` comment lines, but the `int` counter `comments` wraps at
its `2^31`-th increment and ends at `-2^31`. -/
theorem comment_counter_overflow :
    '\x00' ∉ (List.replicate 2147483648 ['/', '/', '\n']).flatten ∧
      ShortLines (List.replicate 2147483648 ['/', '/', '\n']).flatten ∧
      (readLoop 2147483649
        (initState (List.replicate 2147483648 ['/', '/', '\n']).flatten
          (List.replicate 1000 'x'))).map
        LoopState.comments = some (-2147483648) ∧
      (textLines (List.replicate 2147483648 ['/', '/', '\n']).flatten).countP
        (fun l => decide (CommentLine l)) = 2147483648 := by
  have hL : textLines (List.replicate 2147483648 ['/', '/', '\n']).flatten =
      List.replicate 2147483648 ['/', '/', '\n'] :=
    textLines_copies ['/', '/'] (by decide) 2147483648
  have hshort := short_of_copies ['/', '/', '\n'] 2147483648 (by decide)
  have hcount : (List.replicate 2147483648 ['/', '/', '\n']).countP chunkComment =
      2147483648 := by
    rw [List.countP_replicate, if_pos (by decide)]
  obtain ⟨st, _, hrun, _, _, _, hcm⟩ :=
    counts_shortLines (List.replicate 2147483648 ['/', '/', '\n']).flatten
      (List.replicate 1000 'x') _ hL hshort
  refine ⟨?_, ?_, ?_, ?_⟩
  · intro h
    obtain ⟨l, hl, hc⟩ := List.mem_flatten.mp h
    rw [List.eq_of_mem_replicate hl] at hc
    revert hc
    decide
  · unfold ShortLines
    rw [hL]
    exact hshort
  · rw [hrun 2147483649 (by rw [List.length_replicate]; decide)]
    rw [hcount] at hcm
    rw [Option.map_some', hcm]
    decide
  · rw [← comment_count_eq, hL, hcount]

/-- C3 (amended): for a text whose lines, newline included, are at most 999
characters long (NUL characters or not) and which has fewer than `2^31` comment
lines, the loop terminates and the final `comments` is the number of lines whose
first two raw characters are both slashes. -/
theorem comment_counter_short_lines (text buf : List Char) (fuel : Nat)
    (hshort : ShortLines text)
    (hcount : (textLines text).countP (fun l => decide (CommentLine l)) ≤ 2147483647)
    (hfuel : text.length < fuel) :
    ∃ st, readLoop fuel (initState text buf) = some st ∧ st.records = [] ∧
      st.comments = ((textLines text).countP (fun l => decide (CommentLine l)) : Int) := by
  obtain ⟨st, _, hrun, hnil, _, _, hcm⟩ :=
    counts_shortLines text buf (textLines text) rfl hshort
  refine ⟨st, hrun fuel (Nat.lt_of_le_of_lt (textLines_length_le text) hfuel), hnil, ?_⟩
  rw [hcm, comment_count_eq]
  exact Searching.wrapInt_eq _ (by omega) (by omega)

theorem comment_counter_short_lines_witness :
    ShortLines "// a comment\ncode();\n\nint x;\n".toList ∧
      (textLines "// a comment\ncode();\n\nint x;\n".toList).countP
        (fun l => decide (CommentLine l)) ≤ 2147483647 ∧
      ∃ st, readLoop 30 (initState "// a comment\ncode();\n\nint x;\n".toList []) = some st ∧
        st.records = [] ∧
        st.comments = ((textLines "// a comment\ncode();\n\nint x;\n".toList).countP
          (fun l => decide (CommentLine l)) : Int) :=
  ⟨by decide, by decide,
    comment_counter_short_lines "// a comment\ncode();\n\nint x;\n".toList [] 30
      (by decide) (by decide) (by decide)⟩

/-- The input named in C3 evaluated: 1 comment line. -/
theorem comment_counter_example :
    (readLoop 30 (initState "// a comment\ncode();\n\nint x;\n".toList [])).map
        LoopState.comments = some 1 ∧
      (textLines "// a comment\ncode();\n\nint x;\n".toList).countP
        (fun l => decide (CommentLine l)) = 1 := by
  decide

/-- C4, as stated, fails: on the line `x` followed by `2^31 - 1` empty lines,
after `2^31` iterations the `int` counter `lines` has wrapped to `-2^31` while
`bl_lines` is `2^31 - 1`, so `bl_lines <= lines` does not hold. -/
theorem counters_invariant_overflow :
    (afterIterations 2147483648
        (initState ('x' :: '\n' :: List.replicate 2147483647 '\n')
          (List.replicate 1000 'x'))).map
        (fun st => (st.lines, st.bl_lines)) = some (-2147483648, 2147483647) ∧
      ¬ ((2147483647 : Int) ≤ -2147483648) := by
  have hL : textLines ('x' :: '\n' :: List.replicate 2147483647 '\n') =
      ['x', '\n'] :: List.replicate 2147483647 ['\n'] := by
    have := textLines_line ['x'] (List.replicate 2147483647 '\n') (by decide)
    rw [textLines_newlines] at this
    exact this
  have hshort : ∀ l ∈ ['x', '\n'] :: List.replicate 2147483647 ['\n'],
      l.length ≤ LINE_SIZE - 1 := by
    intro l hl
    rcases List.mem_cons.mp hl with rfl | h
    · decide
    · exact short_of_copies ['\n'] 2147483647 (by decide) l h
  have hlen : (['x', '\n'] :: List.replicate 2147483647 ['\n']).length = 2147483648 := by
    rw [List.length_cons, List.length_replicate]
  have hcount : (['x', '\n'] :: List.replicate 2147483647 ['\n']).countP chunkBlank =
      2147483647 := by
    rw [List.countP_cons_of_neg _ _ (by decide), List.countP_replicate, if_pos (by decide)]
  obtain ⟨st, hrun, _, _, hlines, hbl, _⟩ :=
    counts_shortLines ('x' :: '\n' :: List.replicate 2147483647 '\n')
      (List.replicate 1000 'x') _ hL hshort
  rw [hlen] at hrun hlines
  rw [hcount] at hbl
  refine ⟨?_, by decide⟩
  rw [hrun, Option.map_some', hlines, hbl]
  decide

/-- C4 (amended): for every input and every initial buffer, after each of the
first `2^31 - 1` iterations of the read loop (that is after every iteration,
when the input has fewer than `2^31` characters), `bl_lines <= lines`,
`comments <= lines` and `bl_lines + comments <= lines`; and no content of the
buffer, so no `fgets` result, is classified as both blank and comment. -/
theorem counters_invariant (text buf : List Char) (k : Nat) (st : LoopState)
    (hk : k ≤ 2147483647 ∨ text.length ≤ 2147483647)
    (h : afterIterations k (initState text buf) = some st) :
    (st.bl_lines ≤ st.lines ∧ st.comments ≤ st.lines ∧
        st.bl_lines + st.comments ≤ st.lines) ∧
      ∀ line : List Char, ¬ (isBlank line = some true ∧ isComment line = some true) := by
  have hlen := iterations_le_length k (initState text buf) st h
  have hk1 : k ≤ 2147483647 := by
    rcases hk with hk | hk
    · exact hk
    · simp only [initState] at hlen
      omega
  obtain ⟨_, h2, h3, h4⟩ := afterIterations_invariant k (initState text buf) st h
    (by simp only [initState]; omega) (by simp [initState]) (by simp [initState])
    (by simp [initState])
  exact ⟨⟨by omega, by omega, h4⟩, isBlank_isComment_exclusive⟩

theorem counters_invariant_witness :
    (2 ≤ 2147483647 ∨ "//x\n \ny".toList.length ≤ 2147483647) ∧
      afterIterations 2 (initState "//x\n \ny".toList []) =
        some { records := ['y'], line := [' ', '\n', '\x00', '\n', '\x00'], lines := 2,
               bl_lines := 1, comments := 1 } ∧
      (((1 : Int) ≤ 2 ∧ (1 : Int) ≤ 2 ∧ (1 : Int) + 1 ≤ 2) ∧
        ∀ line : List Char, ¬ (isBlank line = some true ∧ isComment line = some true)) :=
  ⟨by decide, by decide,
    counters_invariant "//x\n \ny".toList [] 2
      { records := ['y'], line := [' ', '\n', '\x00', '\n', '\x00'], lines := 2, bl_lines := 1,
        comments := 1 } (by decide) (by decide)⟩

/-- The input named in C5 evaluated through the whole program. -/
theorem indented_comment_example :
    main 25 (some "    // indented comment\n".toList) [] =
      some { stdout := "Lines: 1\nBlank lines: 0\nComment lines: 0\n", status := 0 } := by
  decide

/-- C6: the program ends with a non-zero status exactly when `fopen` fails.
In that case the whole output is the diagnostic `Error in opening file` and the
status is 1; when the file is opened the program terminates with status 0,
whatever the content of the file. -/
theorem fails_iff_open_fails (file : Option (List Char)) (buf : List Char) (fuel : Nat)
    (hfuel : (file.getD []).length < fuel) :
    ∃ o, main fuel file buf = some o ∧ (o.status ≠ 0 ↔ file = none) ∧
      (file = none → o = { stdout := "Error in opening file\n", status := 1 }) ∧
      (file ≠ none → o.status = 0) := by
  cases file with
  | none => exact ⟨_, rfl, by simp, fun _ => rfl, fun h => absurd rfl h⟩
  | some text =>
    obtain ⟨st, hr, _⟩ := readLoop_total fuel (initState text buf) (by simpa [initState] using hfuel)
    refine ⟨{ stdout := report st.lines st.bl_lines st.comments, status := 0 }, ?_, ?_, ?_, ?_⟩
    · simp [main, hr]
    · simp
    · simp
    · intro _; rfl

theorem fails_iff_open_fails_witness :
    ∃ o, main 9 (some "//x\n \ny".toList) [] = some o ∧
      (o.status ≠ 0 ↔ some "//x\n \ny".toList = none) ∧
      (some "//x\n \ny".toList = none →
        o = { stdout := "Error in opening file\n", status := 1 }) ∧
      (some "//x\n \ny".toList ≠ none → o.status = 0) :=
  fails_iff_open_fails (some "//x\n \ny".toList) [] 9 (by decide)

/-- The failed open evaluated: the diagnostic, status 1, whatever the fuel. -/
theorem open_failure_example (fuel : Nat) (buf : List Char) :
    main fuel none buf = some { stdout := "Error in opening file\n", status := 1 } :=
  rfl

/-- C7: when the file is opened, the program terminates with the whole input
consumed, exit status 0, and an output that is exactly the three lines
`Lines: <lines>`, `Blank lines: <bl_lines>`, `Comment lines: <comments>`, each
ended by a newline, with the final counters in decimal. -/
theorem report_after_whole_input (text buf : List Char) (fuel : Nat)
    (hfuel : text.length < fuel) :
    ∃ st, readLoop fuel (initState text buf) = some st ∧ st.records = [] ∧
      main fuel (some text) buf =
        some { stdout := "Lines: " ++ toString st.lines ++ "\nBlank lines: " ++
                 toString st.bl_lines ++ "\nComment lines: " ++ toString st.comments ++ "\n"
               status := 0 } := by
  obtain ⟨st, hr, hnil⟩ := readLoop_total fuel (initState text buf) (by simpa [initState] using hfuel)
  refine ⟨st, hr, hnil, ?_⟩
  simp only [main, hr]
  rfl

theorem report_after_whole_input_witness :
    ∃ st, readLoop 30 (initState "// a comment\ncode();\n\nint x;\n".toList []) = some st ∧
      st.records = [] ∧
      main 30 (some "// a comment\ncode();\n\nint x;\n".toList) [] =
        some { stdout := "Lines: " ++ toString st.lines ++ "\nBlank lines: " ++
                 toString st.bl_lines ++ "\nComment lines: " ++ toString st.comments ++ "\n"
               status := 0 } :=
  report_after_whole_input "// a comment\ncode();\n\nint x;\n".toList [] 30 (by decide)

/-- The input of the specification evaluated: the exact output. -/
theorem report_example :
    main 30 (some "// a comment\ncode();\n\nint x;\n".toList) [] =
      some { stdout := "Lines: 4\nBlank lines: 1\nComment lines: 1\n", status := 0 } := by
  decide

end LineClassifier

/-! ## Sorting: lemmas -/

namespace Sorting

theorem nth_set (arr : List Int) (i k : Nat) (v : Int) :
    nth (arr.set i v) k = if i = k ∧ i < arr.length then v else nth arr k := by
  unfold nth
  rw [List.getElem?_set]
  by_cases h : i = k
  · by_cases h2 : i < arr.length
    · subst h
      simp [h2]
    · subst h
      have : arr[i]? = none := List.getElem?_eq_none (by omega)
      simp [h2, this]
  · simp [h]

theorem readAt_eq (arr : List Int) (k : Nat) (h : k < arr.length) :
    readAt arr k = some (nth arr k) := by
  simp [readAt, nth, List.getElem?_eq_getElem h]

theorem nth_eq_getElem (arr : List Int) (k : Nat) (h : k < arr.length) :
    nth arr k = arr[k] := by
  simp [nth, List.getElem?_eq_getElem h]

/-- Putting `x` at a position and taking out what was there is a permutation. -/
theorem perm_cons_set (x : Int) (xs : List Int) (j : Nat) (h : j < xs.length) :
    (nth xs j :: xs.set j x).Perm (x :: xs) := by
  induction xs generalizing j with
  | nil => simp at h
  | cons z zs ih =>
    cases j with
    | zero => simpa [nth] using List.Perm.swap x z zs
    | succ k =>
      have hk : k < zs.length := by simpa using h
      have h1 : nth (z :: zs) (k + 1) = nth zs k := by simp [nth]
      rw [h1, List.set_cons_succ]
      exact ((List.Perm.swap z (nth zs k) (zs.set k x)).trans
        ((ih k hk).cons z)).trans (List.Perm.swap x z zs)

/-- Exchanging the contents of two positions of an array is a permutation. -/
theorem exchange_perm (arr : List Int) (i j : Nat) (hi : i < arr.length)
    (hj : j < arr.length) :
    ((arr.set i (nth arr j)).set j (nth arr i)).Perm arr := by
  induction arr generalizing i j with
  | nil => simp at hi
  | cons x xs ih =>
    cases i with
    | zero =>
      cases j with
      | zero => simp [nth]
      | succ j =>
        have hj1 : j < xs.length := by simpa using hj
        have := perm_cons_set x xs j hj1
        simpa [nth] using this
    | succ i =>
      have hi1 : i < xs.length := by simpa using hi
      cases j with
      | zero =>
        have := perm_cons_set x xs i hi1
        simpa [nth] using this
      | succ j =>
        have hj1 : j < xs.length := by simpa using hj
        have := ih i j hi1 hj1
        simpa [nth] using this

/-- The effect of the body of the inner loop of `bubble_sort`. -/
theorem bubbleBody_eq (arr : List Int) (j : Nat) (h : j + 1 < arr.length) :
    bubbleBody arr j = some
      (if nth arr j > nth arr (j + 1)
        then (arr.set j (nth arr (j + 1))).set (j + 1) (nth arr j) else arr) := by
  unfold bubbleBody
  rw [readAt_eq arr j (by omega), readAt_eq arr (j + 1) h]
  by_cases hc : nth arr j > nth arr (j + 1)
  · simp [hc, writeAt, h, Nat.lt_of_succ_lt h]
  · simp [hc]

/-- The properties of one step of the inner loop of `bubble_sort`. -/
theorem bubbleBody_spec (arr : List Int) (j : Nat) (h : j + 1 < arr.length) :
    ∃ arr1, bubbleBody arr j = some arr1 ∧ arr1.length = arr.length ∧ arr1.Perm arr ∧
      (∀ k, k ≠ j → k ≠ j + 1 → nth arr1 k = nth arr k) ∧
      nth arr1 j ≤ nth arr1 (j + 1) ∧
      (nth arr1 j = nth arr j ∨ nth arr1 j = nth arr (j + 1)) ∧
      (nth arr1 (j + 1) = nth arr j ∨ nth arr1 (j + 1) = nth arr (j + 1)) ∧
      nth arr j ≤ nth arr1 (j + 1) := by
  refine ⟨_, bubbleBody_eq arr j h, ?_⟩
  by_cases hc : nth arr j > nth arr (j + 1)
  · simp only [hc, if_true]
    refine ⟨by simp, exchange_perm arr j (j + 1) (by omega) h, ?_, ?_, ?_, ?_, ?_⟩
    · intro k h1 h2
      rw [nth_set, nth_set]
      simp [Ne.symm h1, Ne.symm h2]
    · rw [nth_set, nth_set, nth_set, nth_set]
      simp [h, Nat.lt_of_succ_lt h]
      omega
    · right
      rw [nth_set, nth_set]
      simp [Nat.lt_of_succ_lt h]
    · left
      rw [nth_set]
      simp [h]
    · rw [nth_set]
      simp [h]
  · rw [if_neg hc]
    refine ⟨rfl, List.Perm.refl _, fun _ _ _ => rfl, by omega, Or.inl rfl, Or.inr rfl, by omega⟩

/-- The inner loop of `bubble_sort` from `j` on, with `d` iterations left: it
moves the greatest of `arr[0..j+d]` to position `j + d` and touches nothing
behind it. -/
theorem bubbleInner_spec (d : Nat) :
    ∀ (arr : List Int) (n : Int) (i j fuel : Nat), n = arr.length →
      j + d + i + 1 = arr.length → d < fuel →
      (∀ k, k < j → nth arr k ≤ nth arr j) →
      ∃ arr1, bubbleInner n i fuel j arr = some arr1 ∧ arr1.length = arr.length ∧
        arr1.Perm arr ∧
        (∀ k, j + d < k → nth arr1 k = nth arr k) ∧
        (∀ k, k < j + d → nth arr1 k ≤ nth arr1 (j + d)) ∧
        (∀ k, k ≤ j + d → ∃ k1, k1 ≤ j + d ∧ nth arr1 k = nth arr k1) := by
  induction d with
  | zero =>
    intro arr n i j fuel hn hlen hfuel hmax
    cases fuel with
    | zero => omega
    | succ f =>
      have hcond : ¬ ((j : Int) < n - 1 - (i : Int)) := by omega
      refine ⟨arr, by simp [bubbleInner, hcond], rfl, List.Perm.refl _, fun _ _ => rfl, ?_, ?_⟩
      · intro k hk
        exact hmax k (by omega)
      · intro k hk
        exact ⟨k, hk, rfl⟩
  | succ d ih =>
    intro arr n i j fuel hn hlen hfuel hmax
    cases fuel with
    | zero => omega
    | succ f =>
      have hcond : (j : Int) < n - 1 - (i : Int) := by omega
      obtain ⟨arr1, hbody, hlen1, hperm1, hsame1, hle1, hj1, hj2, hge1⟩ :=
        bubbleBody_spec arr j (by omega)
      have hmax1 : ∀ k, k < j + 1 → nth arr1 k ≤ nth arr1 (j + 1) := by
        intro k hk
        by_cases hkj : k = j
        · subst hkj; exact hle1
        · rw [hsame1 k hkj (by omega)]
          exact le_trans (hmax k (by omega)) hge1
      obtain ⟨arr2, hrun, hlen2, hperm2, hsame2, hle2, hfrom2⟩ :=
        ih arr1 n i (j + 1) f (by rw [hlen1]; exact hn) (by rw [hlen1]; omega) (by omega) hmax1
      have hidx : j + 1 + d = j + (d + 1) := by omega
      rw [hidx] at hsame2 hle2 hfrom2
      refine ⟨arr2, ?_, by rw [hlen2, hlen1], hperm2.trans hperm1, ?_, hle2, ?_⟩
      · simp [bubbleInner, hcond, hbody, hrun]
      · intro k hk
        rw [hsame2 k hk, hsame1 k (by omega) (by omega)]
      · intro k hk
        obtain ⟨k1, hk1, he1⟩ := hfrom2 k hk
        by_cases ha : k1 = j
        · subst ha
          rcases hj1 with h | h
          · exact ⟨k1, by omega, by rw [he1, h]⟩
          · exact ⟨k1 + 1, by omega, by rw [he1, h]⟩
        · by_cases hb : k1 = j + 1
          · subst hb
            rcases hj2 with h | h
            · exact ⟨j, by omega, by rw [he1, h]⟩
            · exact ⟨j + 1, by omega, by rw [he1, h]⟩
          · exact ⟨k1, hk1, by rw [he1, hsame1 k1 ha hb]⟩

/-- The outer loop of `bubble_sort` from `i` on, with `r` iterations left, when
the last `i` positions already hold the `i` greatest elements in order. -/
theorem bubbleOuter_spec (r : Nat) :
    ∀ (arr : List Int) (n : Int) (i fuel0 fuel : Nat), n = arr.length →
      i + r = arr.length → arr.length < fuel0 → r < fuel →
      (∀ p q, p < q → arr.length - i ≤ q → q < arr.length → nth arr p ≤ nth arr q) →
      ∃ out, bubbleOuter n fuel0 fuel i arr = some out ∧ out.length = arr.length ∧
        out.Perm arr ∧ Ascending out out.length := by
  induction r with
  | zero =>
    intro arr n i fuel0 fuel hn hlen hfuel0 hfuel hinv
    cases fuel with
    | zero => omega
    | succ f =>
      have hcond : ¬ ((i : Int) < n) := by omega
      refine ⟨arr, by simp [bubbleOuter, hcond], rfl, List.Perm.refl _, ?_⟩
      intro p q hpq hq
      exact hinv p q hpq (by omega) hq
  | succ r ih =>
    intro arr n i fuel0 fuel hn hlen hfuel0 hfuel hinv
    cases fuel with
    | zero => omega
    | succ f =>
      have hcond : (i : Int) < n := by omega
      obtain ⟨arr1, hrun1, hlen1, hperm1, hsame1, hle1, hfrom1⟩ :=
        bubbleInner_spec r arr n i 0 fuel0 hn (by omega) (by omega)
          (fun k hk => absurd hk (Nat.not_lt_zero k))
      simp only [Nat.zero_add] at hsame1 hle1 hfrom1
      have hinv1 : ∀ p q, p < q → arr1.length - (i + 1) ≤ q → q < arr1.length →
          nth arr1 p ≤ nth arr1 q := by
        intro p q hpq hq1 hq2
        rw [hlen1] at hq1 hq2
        by_cases hqr : q = r
        · subst hqr
          exact hle1 p hpq
        · have hq3 : r < q := by omega
          rw [hsame1 q hq3]
          by_cases hpr : p ≤ r
          · obtain ⟨p1, hp1, he⟩ := hfrom1 p hpr
            rw [he]
            exact hinv p1 q (by omega) (by omega) hq2
          · rw [hsame1 p (by omega)]
            exact hinv p q hpq (by omega) hq2
      obtain ⟨out, hrun, hlen2, hperm2, hasc⟩ :=
        ih arr1 n (i + 1) fuel0 f (by rw [hlen1]; exact hn) (by rw [hlen1]; omega)
          (by rw [hlen1]; exact hfuel0) (by omega) hinv1
      refine ⟨out, ?_, by rw [hlen2, hlen1], hperm2.trans hperm1, hasc⟩
      simp [bubbleOuter, hcond, hrun1, hrun]

/-- The print loop prints the array from `i` on. -/
theorem printLoop_spec (r : Nat) :
    ∀ (arr : List Int) (n : Int) (i fuel : Nat), n = arr.length →
      i + r = arr.length → r < fuel →
      printLoop arr n fuel i = some (arr.drop i) := by
  induction r with
  | zero =>
    intro arr n i fuel hn hlen hfuel
    cases fuel with
    | zero => omega
    | succ f =>
      have hcond : ¬ ((i : Int) < n) := by omega
      have hdrop : arr.drop i = [] := List.drop_eq_nil_of_le (by omega)
      simp [printLoop, hcond, hdrop]
  | succ r ih =>
    intro arr n i fuel hn hlen hfuel
    cases fuel with
    | zero => omega
    | succ f =>
      have hcond : (i : Int) < n := by omega
      have hi : i < arr.length := by omega
      have hdrop : arr.drop i = nth arr i :: arr.drop (i + 1) := by
        rw [nth_eq_getElem arr i hi]
        exact List.drop_eq_getElem_cons hi
      simp [printLoop, hcond, readAt_eq arr i hi, ih arr n (i + 1) f hn (by omega) (by omega),
        hdrop]

theorem sorted_of_ascending (arr : List Int) (h : Ascending arr arr.length) :
    arr.Sorted (· ≤ ·) := by
  unfold List.Sorted
  rw [List.pairwise_iff_getElem]
  intro p q hp hq hpq
  have := h p q hpq hq
  rwa [nth_eq_getElem arr p hp, nth_eq_getElem arr q hq] at this

/-- A sorted permutation of the input is its ascending sort. -/
theorem eq_insertionSort (out arr : List Int) (hs : out.Sorted (· ≤ ·)) (hp : out.Perm arr) :
    out = arr.insertionSort (· ≤ ·) :=
  List.eq_of_perm_of_sorted (hp.trans (List.perm_insertionSort (· ≤ ·) arr).symm) hs
    (List.sorted_insertionSort (· ≤ ·) arr)

/-- The inner loop of `selection_sort` from `j` on, with `d` iterations left:
at the end `head` is the least of `arr[i..]`, `index` is a position that holds
it, and `flag` is 1 unless `index` is still `i`. -/
theorem selectInner_spec (d : Nat) :
    ∀ (arr : List Int) (n : Int) (i j fuel : Nat) (sel : Selection), n = arr.length →
      j + d = arr.length → d < fuel → i ≤ sel.index → sel.index < j →
      sel.head = nth arr sel.index →
      (∀ k, i ≤ k → k < j → sel.head ≤ nth arr k) →
      (sel.flag ≠ 1 → sel.index = i) →
      ∃ sel1, selectInner arr n fuel j sel = some sel1 ∧ i ≤ sel1.index ∧
        sel1.index < arr.length ∧ sel1.head = nth arr sel1.index ∧
        (∀ k, i ≤ k → k < arr.length → sel1.head ≤ nth arr k) ∧
        (sel1.flag ≠ 1 → sel1.index = i) := by
  induction d with
  | zero =>
    intro arr n i j fuel sel hn hlen hfuel hi hj hhead hmin hflag
    cases fuel with
    | zero => omega
    | succ f =>
      have hcond : ¬ ((j : Int) < n) := by omega
      refine ⟨sel, by simp [selectInner, hcond], hi, by omega, hhead, ?_, hflag⟩
      intro k hk1 hk2
      exact hmin k hk1 (by omega)
  | succ d ih =>
    intro arr n i j fuel sel hn hlen hfuel hi hj hhead hmin hflag
    cases fuel with
    | zero => omega
    | succ f =>
      have hcond : (j : Int) < n := by omega
      have hjlt : j < arr.length := by omega
      by_cases hlt : nth arr j < sel.head
      · obtain ⟨sel1, hrun, h1, h2, h3, h4, h5⟩ :=
          ih arr n i (j + 1) f { head := nth arr j, index := j, flag := 1 } hn (by omega)
            (by omega) (by simp only; omega) (by simp only; omega) rfl
            (by
              intro k hk1 hk2
              simp only
              by_cases hkj : k = j
              · subst hkj; exact le_refl _
              · exact le_of_lt (lt_of_lt_of_le hlt (hmin k hk1 (by omega))))
            (by intro h; exact absurd rfl h)
        exact ⟨sel1, by simp [selectInner, hcond, readAt_eq arr j hjlt, hlt, hrun],
          h1, h2, h3, h4, h5⟩
      · obtain ⟨sel1, hrun, h1, h2, h3, h4, h5⟩ :=
          ih arr n i (j + 1) f sel hn (by omega) (by omega) hi (by omega) hhead
            (by
              intro k hk1 hk2
              by_cases hkj : k = j
              · subst hkj; exact not_lt.mp hlt
              · exact hmin k hk1 (by omega))
            hflag
        exact ⟨sel1, by simp [selectInner, hcond, readAt_eq arr j hjlt, hlt, hrun],
          h1, h2, h3, h4, h5⟩

/-- The outer loop of `selection_sort` from `i` on, with `r` iterations left,
when the first `i` positions already hold the `i` least elements in order. -/
theorem selectOuter_spec (r : Nat) :
    ∀ (arr : List Int) (n : Int) (i fuel0 fuel : Nat), n = arr.length →
      i + r = arr.length → arr.length < fuel0 → r < fuel →
      (∀ p q, p < i → p < q → q < arr.length → nth arr p ≤ nth arr q) →
      ∃ out, selectOuter n fuel0 fuel i arr = some out ∧ out.length = arr.length ∧
        out.Perm arr ∧ Ascending out out.length := by
  induction r with
  | zero =>
    intro arr n i fuel0 fuel hn hlen hfuel0 hfuel hinv
    cases fuel with
    | zero => omega
    | succ f =>
      have hcond : ¬ ((i : Int) < n) := by omega
      refine ⟨arr, by simp [selectOuter, hcond], rfl, List.Perm.refl _, ?_⟩
      intro p q hpq hq
      exact hinv p q (by omega) hpq hq
  | succ r ih =>
    intro arr n i fuel0 fuel hn hlen hfuel0 hfuel hinv
    cases fuel with
    | zero => omega
    | succ f =>
      have hcond : (i : Int) < n := by omega
      have hi : i < arr.length := by omega
      obtain ⟨sel, hsel, hidx1, hidx2, hhead, hmin, hflag⟩ :=
        selectInner_spec r arr n i (i + 1) fuel0 { head := nth arr i, index := i, flag := 0 }
          hn (by omega) (by omega) (le_refl _) (Nat.lt_succ_self _) rfl
          (by
            intro k hk1 hk2
            have : k = i := by omega
            subst this
            exact le_refl _)
          (fun _ => rfl)
      by_cases hf1 : sel.flag = 1
      · have hval : ∀ k, nth ((arr.set sel.index (nth arr i)).set i sel.head) k =
            if k = i then sel.head else if k = sel.index then nth arr i else nth arr k := by
          intro k
          rw [nth_set, nth_set]
          by_cases h1 : i = k
          · subst h1; simp [hi]
          · by_cases h2 : sel.index = k
            · subst h2; simp [h1, hidx2, Ne.symm h1]
            · simp [h1, h2, Ne.symm h1, Ne.symm h2]
        have hinv1 : ∀ p q, p < i + 1 → p < q →
            q < ((arr.set sel.index (nth arr i)).set i sel.head).length →
            nth ((arr.set sel.index (nth arr i)).set i sel.head) p ≤
              nth ((arr.set sel.index (nth arr i)).set i sel.head) q := by
          intro p q hp hpq hq
          simp only [List.length_set] at hq
          rw [hval p, hval q]
          by_cases hpi : p = i
          · subst hpi
            have hqi : q ≠ p := by omega
            simp only [if_true, hqi, if_false]
            by_cases hqx : q = sel.index
            · simp only [hqx, if_true]; exact hmin p (le_refl _) hi
            · simp only [hqx, if_false]; exact hmin q (by omega) hq
          · have hpx : p ≠ sel.index := by omega
            simp only [hpi, hpx, if_false]
            by_cases hqi : q = i
            · simp only [hqi, if_true]
              rw [hhead]
              exact hinv p sel.index (by omega) (by omega) hidx2
            · simp only [hqi, if_false]
              by_cases hqx : q = sel.index
              · simp only [hqx, if_true]; exact hinv p i (by omega) (by omega) hi
              · simp only [hqx, if_false]; exact hinv p q (by omega) hpq hq
        obtain ⟨out, hrun, hlen2, hperm2, hasc⟩ :=
          ih ((arr.set sel.index (nth arr i)).set i sel.head) n (i + 1) fuel0 f
            (by simp [hn]) (by simp; omega) (by simpa using hfuel0) (by omega) hinv1
        have hperm1 : ((arr.set sel.index (nth arr i)).set i sel.head).Perm arr := by
          rw [hhead]
          exact exchange_perm arr sel.index i hidx2 hi
        refine ⟨out, ?_, by simpa using hlen2, hperm2.trans hperm1, hasc⟩
        simp [selectOuter, hcond, readAt_eq arr i hi, hsel, hf1, writeAt, hidx2, hi, hrun]
      · have hx : sel.index = i := hflag hf1
        rw [hx] at hhead
        have hinv1 : ∀ p q, p < i + 1 → p < q → q < arr.length → nth arr p ≤ nth arr q := by
          intro p q hp hpq hq
          by_cases hpi : p = i
          · subst hpi
            rw [← hhead]
            exact hmin q (by omega) hq
          · exact hinv p q (by omega) hpq hq
        obtain ⟨out, hrun, hlen2, hperm2, hasc⟩ :=
          ih arr n (i + 1) fuel0 f hn (by omega) hfuel0 (by omega) hinv1
        refine ⟨out, ?_, hlen2, hperm2, hasc⟩
        simp [selectOuter, hcond, readAt_eq arr i hi, hsel, hf1, hrun]

end Sorting

/-! ## Sorting: the claims -/

namespace Sorting

/-- C8: for every `int` array `arr` of length `n` with `0 <= n <= 100`,
`bubble_sort(arr, n)` terminates without leaving the array, the array it leaves
is in non-decreasing order and is a permutation of the original content, that
is the ascending sort of the input, and the text printed is the line
`Sorted array (ascending):` followed by the elements of that array in order,
in decimal, each followed by a space, and a final newline. -/
theorem bubble_sort_sorts (arr : List Int) (fuel : Nat) (_hn : arr.length ≤ 100)
    (hfuel : arr.length < fuel) :
    ∃ out, bubble_sort fuel arr (arr.length : Int) =
        some (out, "Sorted array (ascending):\n" ++
          String.join (out.map (fun x => toString x ++ " ")) ++ "\n") ∧
      out.Sorted (· ≤ ·) ∧ out.Perm arr ∧ out = arr.insertionSort (· ≤ ·) := by
  obtain ⟨out, hrun, hlen, hperm, hasc⟩ :=
    bubbleOuter_spec arr.length arr arr.length 0 fuel fuel rfl (by omega) hfuel hfuel
      (fun p q hpq h1 h2 => by omega)
  have hprint := printLoop_spec out.length out arr.length 0 fuel (by rw [hlen]) (by omega)
    (by omega)
  have hsorted := sorted_of_ascending out hasc
  refine ⟨out, ?_, hsorted, hperm, eq_insertionSort out arr hsorted hperm⟩
  simp [bubble_sort, hrun, hprint, sortedReport]

theorem bubble_sort_sorts_witness :
    ∃ out, bubble_sort 6 [3, -1, 2, 2, 0] (([3, -1, 2, 2, 0] : List Int).length : Int) =
        some (out, "Sorted array (ascending):\n" ++
          String.join (out.map (fun x => toString x ++ " ")) ++ "\n") ∧
      out.Sorted (· ≤ ·) ∧ out.Perm [3, -1, 2, 2, 0] ∧
      out = ([3, -1, 2, 2, 0] : List Int).insertionSort (· ≤ ·) :=
  bubble_sort_sorts [3, -1, 2, 2, 0] 6 (by decide) (by decide)

/-- The function `bubble_sort` evaluated on an array of five numbers. -/
theorem bubble_sort_example :
    bubble_sort 6 [3, -1, 2, 2, 0] 5 =
      some ([-1, 0, 2, 2, 3], "Sorted array (ascending):\n-1 0 2 2 3 \n") := by
  decide

/-- C9: for every `int` array `arr` of length `n` with `0 <= n <= 100`,
`selection_sort(arr, n)` terminates without leaving the array, the array it
leaves is in non-decreasing order and is a permutation of the original content,
that is the ascending sort of the input, and the text printed is the line
`Sorted array (ascending):` followed by the elements of that array in order,
in decimal, each followed by a space, and a final newline. -/
theorem selection_sort_sorts (arr : List Int) (fuel : Nat) (_hn : arr.length ≤ 100)
    (hfuel : arr.length < fuel) :
    ∃ out, selection_sort fuel arr (arr.length : Int) =
        some (out, "Sorted array (ascending):\n" ++
          String.join (out.map (fun x => toString x ++ " ")) ++ "\n") ∧
      out.Sorted (· ≤ ·) ∧ out.Perm arr ∧ out = arr.insertionSort (· ≤ ·) := by
  obtain ⟨out, hrun, hlen, hperm, hasc⟩ :=
    selectOuter_spec arr.length arr arr.length 0 fuel fuel rfl (by omega) hfuel hfuel
      (fun p q hp _ _ => absurd hp (Nat.not_lt_zero p))
  have hprint := printLoop_spec out.length out arr.length 0 fuel (by rw [hlen]) (by omega)
    (by omega)
  have hsorted := sorted_of_ascending out hasc
  refine ⟨out, ?_, hsorted, hperm, eq_insertionSort out arr hsorted hperm⟩
  simp [selection_sort, hrun, hprint, sortedReport]

theorem selection_sort_sorts_witness :
    ∃ out, selection_sort 6 [3, -1, 2, 2, 0] (([3, -1, 2, 2, 0] : List Int).length : Int) =
        some (out, "Sorted array (ascending):\n" ++
          String.join (out.map (fun x => toString x ++ " ")) ++ "\n") ∧
      out.Sorted (· ≤ ·) ∧ out.Perm [3, -1, 2, 2, 0] ∧
      out = ([3, -1, 2, 2, 0] : List Int).insertionSort (· ≤ ·) :=
  selection_sort_sorts [3, -1, 2, 2, 0] 6 (by decide) (by decide)

/-- The function `selection_sort` evaluated on an array of five numbers. -/
theorem selection_sort_example :
    selection_sort 6 [3, -1, 2, 2, 0] 5 =
      some ([-1, 0, 2, 2, 3], "Sorted array (ascending):\n-1 0 2 2 3 \n") := by
  decide

end Sorting

/-! ## Binary search: lemmas -/

namespace Searching

theorem readIndex_eq (arr : List Int) (k : Int) (h0 : 0 ≤ k) (h1 : k < arr.length) :
    ∃ a, readIndex arr k = some a ∧ arr[k.toNat]? = some a := by
  have hk : k.toNat < arr.length := by omega
  exact ⟨arr[k.toNat], by simp [readIndex, h0, List.getElem?_eq_getElem hk],
    List.getElem?_eq_getElem hk⟩

/-- The index form of sortedness. -/
theorem sorted_getElem? (arr : List Int) (hs : arr.Sorted (· ≤ ·)) (p q : Nat) (a b : Int)
    (hpq : p ≤ q) (hp : arr[p]? = some a) (hq : arr[q]? = some b) : a ≤ b := by
  obtain ⟨hp1, hp2⟩ := List.getElem?_eq_some.mp hp
  obtain ⟨hq1, hq2⟩ := List.getElem?_eq_some.mp hq
  rcases Nat.eq_or_lt_of_le hpq with h | h
  · subst h
    rw [← hp2, ← hq2]
  · have := (List.pairwise_iff_getElem.mp hs) p q hp1 hq1 h
    rwa [hp2, hq2] at this

/-- The search on the interval `[lower, upper]` of a sorted array of at most 100
elements, when `element` occurs nowhere outside of the interval. -/
theorem binary_search_spec (arr : List Int) (element : Int) (hs : arr.Sorted (· ≤ ·))
    (hn : arr.length ≤ 100) (fuel : Nat) :
    ∀ (lower upper : Int), 0 ≤ lower → upper < arr.length → lower ≤ upper + 1 →
      upper - lower + 1 < fuel →
      (∀ k : Nat, arr[k]? = some element → lower ≤ k ∧ (k : Int) ≤ upper) →
      ∃ r, binary_search arr fuel lower upper element = some r ∧
        ((r = -1 ∧ element ∉ arr) ∨
          (0 ≤ r ∧ r < arr.length ∧ arr[r.toNat]? = some element)) := by
  induction fuel with
  | zero =>
    intro lower upper h0 h1 h2 hf hout
    omega
  | succ f ih =>
    intro lower upper h0 h1 h2 hf hout
    by_cases hlu : lower > upper
    · refine ⟨-1, by simp [binary_search, hlu], Or.inl ⟨rfl, ?_⟩⟩
      intro hmem
      obtain ⟨k, hk⟩ := List.mem_iff_getElem?.mp hmem
      have := hout k hk
      omega
    · have hw : wrapInt (lower + upper) = lower + upper := wrapInt_eq _ (by omega) (by omega)
      have hdiv : (lower + upper).tdiv 2 = (lower + upper) / 2 :=
        Int.tdiv_eq_ediv (by omega) (by omega)
      have hm0 : lower ≤ (lower + upper) / 2 := by omega
      have hm1 : (lower + upper) / 2 ≤ upper := by omega
      obtain ⟨a, hread, hget⟩ := readIndex_eq arr ((lower + upper) / 2) (by omega) (by omega)
      by_cases heq : a = element
      · refine ⟨(lower + upper) / 2, ?_, Or.inr ⟨by omega, by omega, by rw [hget, heq]⟩⟩
        simp [binary_search, hlu, hw, hdiv, hread, heq]
      · by_cases hgt : a > element
        · have hw1 : wrapInt ((lower + upper) / 2 - 1) = (lower + upper) / 2 - 1 :=
            wrapInt_eq _ (by omega) (by omega)
          obtain ⟨r, hr, hres⟩ := ih lower ((lower + upper) / 2 - 1) h0 (by omega) (by omega) (by omega)
            (by
              intro k hk
              have hb := hout k hk
              refine ⟨hb.1, ?_⟩
              by_contra hc
              have hle := sorted_getElem? arr hs ((lower + upper) / 2).toNat k a element
                (by omega) hget hk
              omega)
          exact ⟨r, by simp [binary_search, hlu, hw, hdiv, hread, heq, hgt, hw1, hr], hres⟩
        · have hw1 : wrapInt ((lower + upper) / 2 + 1) = (lower + upper) / 2 + 1 :=
            wrapInt_eq _ (by omega) (by omega)
          obtain ⟨r, hr, hres⟩ := ih ((lower + upper) / 2 + 1) upper (by omega) h1 (by omega) (by omega)
            (by
              intro k hk
              have hb := hout k hk
              refine ⟨?_, hb.2⟩
              by_contra hc
              have hle := sorted_getElem? arr hs k ((lower + upper) / 2).toNat element a
                (by omega) hk hget
              omega)
          exact ⟨r, by simp [binary_search, hlu, hw, hdiv, hread, heq, hgt, hw1, hr], hres⟩

end Searching

/-! ## Binary search: the claim -/

namespace Searching

/-- C10: for every `int` array `arr` of length `n` with `0 <= n <= 100` in
non-decreasing order and every `element`, `binary_search(arr, 0, n - 1,
element)` terminates without reading outside of `arr[0..n-1]`; it returns -1
exactly when `element` does not occur in the array, and otherwise an index `r`
with `0 <= r < n` and `arr[r] == element`. -/
theorem binary_search_correct (arr : List Int) (element : Int) (fuel : Nat)
    (hs : arr.Sorted (· ≤ ·)) (hn : arr.length ≤ 100) (hfuel : arr.length < fuel) :
    ∃ r, binary_search arr fuel 0 ((arr.length : Int) - 1) element = some r ∧
      (r = -1 ↔ element ∉ arr) ∧
      (r ≠ -1 → 0 ≤ r ∧ r < arr.length ∧ arr[r.toNat]? = some element) := by
  obtain ⟨r, hr, hres⟩ := binary_search_spec arr element hs hn fuel 0 ((arr.length : Int) - 1)
    (le_refl _) (by omega) (by omega) (by omega)
    (by
      intro k hk
      have := (List.getElem?_eq_some.mp hk).1
      omega)
  refine ⟨r, hr, ?_, ?_⟩
  · rcases hres with ⟨h1, h2⟩ | ⟨h1, h2, h3⟩
    · exact ⟨fun _ => h2, fun _ => h1⟩
    · constructor
      · intro h; omega
      · intro h
        exact absurd (List.mem_iff_getElem?.mpr ⟨r.toNat, h3⟩) h
  · intro hne
    rcases hres with ⟨h1, _⟩ | h
    · exact absurd h1 hne
    · exact h

theorem binary_search_correct_witness :
    ∃ r, binary_search [-3, 0, 0, 4, 9] 6 0 ((([-3, 0, 0, 4, 9] : List Int).length : Int) - 1) 4 =
        some r ∧
      (r = -1 ↔ (4 : Int) ∉ ([-3, 0, 0, 4, 9] : List Int)) ∧
      (r ≠ -1 → 0 ≤ r ∧ r < ([-3, 0, 0, 4, 9] : List Int).length ∧
        ([-3, 0, 0, 4, 9] : List Int)[r.toNat]? = some 4) :=
  binary_search_correct [-3, 0, 0, 4, 9] 4 6 (by decide) (by decide) (by decide)

/-- The function `binary_search` evaluated: a hit, a miss, and the empty array. -/
theorem binary_search_examples :
    binary_search [-3, 0, 0, 4, 9] 6 0 4 4 = some 3 ∧
      binary_search [-3, 0, 0, 4, 9] 6 0 4 5 = some (-1) ∧
      binary_search [] 1 0 (-1) 7 = some (-1) := by
  decide

end Searching

/-! ## Linear search -/

namespace Searching

/-- The search from `index` on, with `d` elements left, when `element` occurs at
or after `index` and nowhere before it. -/
theorem linear_search_spec (arr : List Int) (element : Int)
    (hint : (arr.length : Int) ≤ 2147483647) (d : Nat) :
    ∀ (index fuel : Nat), index + d = arr.length → d < fuel →
      (∃ k, index ≤ k ∧ arr[k]? = some element) →
      (∀ k, k < index → arr[k]? ≠ some element) →
      ∃ r : Nat, linear_search arr fuel element index arr.length = some (r : Int) ∧
        arr[r]? = some element ∧ ∀ k, k < r → arr[k]? ≠ some element := by
  induction d with
  | zero =>
    intro index fuel hlen hfuel hex hbefore
    obtain ⟨k, hk1, hk2⟩ := hex
    have := (List.getElem?_eq_some.mp hk2).1
    omega
  | succ d ih =>
    intro index fuel hlen hfuel hex hbefore
    cases fuel with
    | zero => omega
    | succ f =>
      obtain ⟨a, hread, hget⟩ := readIndex_eq arr (index : Int) (by omega) (by omega)
      simp only [Int.toNat_ofNat] at hget
      by_cases heq : a = element
      · refine ⟨index, by simp [linear_search, hread, heq], by rw [hget, heq], hbefore⟩
      · have hlt : (index : Int) < (arr.length : Int) := by omega
        have hw : wrapInt ((index : Int) + 1) = ((index + 1 : Nat) : Int) := by
          rw [wrapInt_eq _ (by omega) (by omega)]
          simp
        obtain ⟨r, hr, hres⟩ := ih (index + 1) f (by omega) (by omega)
          (by
            obtain ⟨k, hk1, hk2⟩ := hex
            refine ⟨k, ?_, hk2⟩
            by_contra hc
            have hki : k = index := by omega
            subst hki
            rw [hget] at hk2
            exact heq (Option.some.inj hk2))
          (by
            intro k hk
            by_cases hki : k = index
            · subst hki
              rw [hget]
              intro h
              exact heq (Option.some.inj h)
            · exact hbefore k (by omega))
        exact ⟨r, by simp only [linear_search, hread, heq, hlt, if_true, if_false, hw, hr], hres⟩

/-- C11: for every `int` array `arr` of length `n >= 1` (`n` an `int`) and every
`element` that occurs in it, `linear_search(arr, element, 0, n)` terminates
without reading outside of the array and returns the smallest index `r` with
`arr[r] == element`. -/
theorem linear_search_first_index (arr : List Int) (element : Int) (fuel : Nat)
    (_hlen : 1 ≤ arr.length) (hint : (arr.length : Int) ≤ 2147483647)
    (hmem : element ∈ arr) (hfuel : arr.length < fuel) :
    ∃ r : Nat, linear_search arr fuel element 0 arr.length = some (r : Int) ∧
      r < arr.length ∧ arr[r]? = some element ∧ ∀ k, k < r → arr[k]? ≠ some element := by
  obtain ⟨k, hk⟩ := List.mem_iff_getElem?.mp hmem
  obtain ⟨r, hr, hget, hmin⟩ := linear_search_spec arr element hint arr.length 0 fuel
    (by omega) hfuel ⟨k, Nat.zero_le k, hk⟩ (fun k hk => absurd hk (Nat.not_lt_zero k))
  exact ⟨r, by simpa using hr, (List.getElem?_eq_some.mp hget).1, hget, hmin⟩

theorem linear_search_first_index_witness :
    ∃ r : Nat, linear_search [5, 3, 7, 3] 5 3 0 ([5, 3, 7, 3] : List Int).length =
        some (r : Int) ∧
      r < ([5, 3, 7, 3] : List Int).length ∧ ([5, 3, 7, 3] : List Int)[r]? = some 3 ∧
      ∀ k, k < r → ([5, 3, 7, 3] : List Int)[k]? ≠ some 3 :=
  linear_search_first_index [5, 3, 7, 3] 3 5 (by decide) (by decide) (by decide) (by decide)

/-- The function `linear_search` evaluated: the first of two occurrences. -/
theorem linear_search_example :
    linear_search [5, 3, 7, 3] 5 3 0 4 = some 1 := by
  decide

end Searching

/-! ## The recursive functions `GCD`, `LCM`, `Bin_to_Dec` -/

namespace Recursion

theorem cmod_natCast (x y : Nat) (hy : 0 < y) :
    cmod (x : Int) (y : Int) = some ((x % y : Nat) : Int) := by
  have h1 : ¬ (((y : Int) = 0) ∨ ((x : Int) = -2147483648 ∧ (y : Int) = -1)) := by omega
  rw [cmod, if_neg h1, Int.tmod_eq_emod (by omega) (by omega)]
  simp

theorem cdiv_natCast (x y : Nat) (hy : 0 < y) :
    cdiv (x : Int) (y : Int) = some ((x / y : Nat) : Int) := by
  have h1 : ¬ (((y : Int) = 0) ∨ ((x : Int) = -2147483648 ∧ (y : Int) = -1)) := by omega
  rw [cdiv, if_neg h1, Int.tdiv_eq_ediv (by omega) (by omega)]
  simp

/-- Euclid's algorithm on natural numbers: fuel above `n2` is enough. -/
theorem GCD_natCast (fuel : Nat) :
    ∀ (n1 n2 : Nat), n2 < fuel → GCD fuel (n1 : Int) (n2 : Int) = some ((Nat.gcd n1 n2 : Nat) : Int) := by
  induction fuel with
  | zero => intro n1 n2 h; omega
  | succ f ih =>
    intro n1 n2 h
    by_cases h0 : n2 = 0
    · subst h0
      simp [GCD]
    · have hpos : 0 < n2 := Nat.pos_of_ne_zero h0
      have hne : ¬ ((n2 : Int) = 0) := by omega
      have hlt : n1 % n2 < n2 := Nat.mod_lt _ hpos
      have hg : Nat.gcd n2 (n1 % n2) = Nat.gcd n1 n2 := by
        rw [Nat.gcd_comm n2 (n1 % n2), ← Nat.gcd_rec, Nat.gcd_comm]
      rw [GCD, if_neg hne, cmod_natCast n1 n2 hpos]
      simp only
      rw [ih n2 (n1 % n2) (by omega), hg]

/-- The search for a common multiple from `multiple` on, `d` below the least
common multiple. -/
theorem LCM_natCast (a b : Nat) (ha : 0 < a) (hb : 0 < b)
    (hint : (Nat.lcm a b : Int) ≤ 2147483647) (d : Nat) :
    ∀ (multiple fuel : Nat), 0 < multiple → multiple + d = Nat.lcm a b → d < fuel →
      LCM fuel (a : Int) (b : Int) (multiple : Int) = some ((Nat.lcm a b : Nat) : Int) := by
  induction d with
  | zero =>
    intro multiple fuel hpos hsum hfuel
    cases fuel with
    | zero => omega
    | succ f =>
      have hm : multiple = Nat.lcm a b := by omega
      have h1 : Nat.lcm a b % a = 0 := Nat.mod_eq_zero_of_dvd (Nat.dvd_lcm_left a b)
      have h2 : Nat.lcm a b % b = 0 := Nat.mod_eq_zero_of_dvd (Nat.dvd_lcm_right a b)
      rw [hm, LCM, cmod_natCast _ a ha, cmod_natCast _ b hb, h1, h2]
      simp
  | succ d ih =>
    intro multiple fuel hpos hsum hfuel
    cases fuel with
    | zero => omega
    | succ f =>
      have hw : Searching.wrapInt ((multiple : Int) + 1) = ((multiple + 1 : Nat) : Int) := by
        rw [Searching.wrapInt_eq _ (by omega) (by omega)]
        simp
      have hrec := ih (multiple + 1) f (by omega) (by omega) (by omega)
      have hnot : ¬ (multiple % a = 0 ∧ multiple % b = 0) := by
        rintro ⟨h1, h2⟩
        have hdvd : Nat.lcm a b ∣ multiple :=
          Nat.lcm_dvd (Nat.dvd_of_mod_eq_zero h1) (Nat.dvd_of_mod_eq_zero h2)
        have := Nat.le_of_dvd hpos hdvd
        omega
      rw [LCM, cmod_natCast _ a ha, cmod_natCast _ b hb]
      simp only [hw, hrec]
      by_cases h1 : multiple % a = 0
      · have h2 : ¬ (multiple % b = 0) := fun h => hnot ⟨h1, h⟩
        have c1 : ((multiple % a : Nat) : Int) = 0 := by rw [h1]; rfl
        have c2 : ¬ (((multiple % b : Nat) : Int) = 0) := by omega
        rw [if_pos c1, if_neg c2]
      · have c1 : ¬ (((multiple % a : Nat) : Int) = 0) := by omega
        rw [if_neg c1]

theorem digits_ten_step (n : Nat) (h : 0 < n) :
    Nat.digits 10 n = (n % 10) :: Nat.digits 10 (n / 10) :=
  Nat.digits_def' (by decide) h

/-- The digit counting loop adds the number of decimal digits to `n_digits`. -/
theorem countDigits_spec (fuel : Nat) :
    ∀ (q k : Nat), (Nat.digits 10 q).length < fuel →
      k + (Nat.digits 10 q).length ≤ 2147483647 →
      countDigits fuel (q : Int) (k : Int) =
        some ((k + (Nat.digits 10 q).length : Nat) : Int) := by
  induction fuel with
  | zero => intro q k h; omega
  | succ f ih =>
    intro q k hf hk
    by_cases h0 : q = 0
    · subst h0
      simp [countDigits]
    · have hpos : 0 < q := Nat.pos_of_ne_zero h0
      have hne : (q : Int) ≠ 0 := by omega
      have hd := digits_ten_step q hpos
      rw [hd] at hf hk ⊢
      simp only [List.length_cons] at hf hk ⊢
      have hw : Searching.wrapInt ((k : Int) + 1) = ((k + 1 : Nat) : Int) := by
        rw [Searching.wrapInt_eq _ (by omega) (by omega)]
        simp
      have hc : cdiv (q : Int) 10 = some ((q / 10 : Nat) : Int) := cdiv_natCast q 10 (by decide)
      rw [countDigits, if_pos hne]
      simp only [hc, hw, Option.bind_eq_bind, Option.some_bind]
      rw [ih (q / 10) (k + 1) (by omega) (by omega)]
      have e : k + 1 + (Nat.digits 10 (q / 10)).length =
          k + ((Nat.digits 10 (q / 10)).length + 1) := by omega
      rw [e]

/-- The function `Bin_to_Dec` gives the last decimal digit the weight
`2 ^ power` and doubles the weight from digit to digit. -/
theorem Bin_to_Dec_spec (fuel : Nat) :
    ∀ (n p : Nat), (Nat.digits 10 n).length < fuel →
      p + (Nat.digits 10 n).length ≤ 2147483647 →
      Bin_to_Dec fuel (n : Int) (p : Int) =
        some ((2 ^ p * Nat.ofDigits 2 (Nat.digits 10 n) : Nat) : Int) := by
  induction fuel with
  | zero => intro n p h; omega
  | succ f ih =>
    intro n p hf hp
    by_cases h0 : n = 0
    · subst h0
      simp [Bin_to_Dec]
    · have hpos : 0 < n := Nat.pos_of_ne_zero h0
      have hne : ¬ ((n : Int) = 0) := by omega
      have hd := digits_ten_step n hpos
      rw [hd] at hf hp ⊢
      simp only [List.length_cons] at hf hp
      have hw : Searching.wrapInt ((p : Int) + 1) = ((p + 1 : Nat) : Int) := by
        rw [Searching.wrapInt_eq _ (by omega) (by omega)]
        simp
      have hc : cdiv (n : Int) 10 = some ((n / 10 : Nat) : Int) := cdiv_natCast n 10 (by decide)
      have hm : cmod (n : Int) 10 = some ((n % 10 : Nat) : Int) := cmod_natCast n 10 (by decide)
      have hpw : pow2 (p : Int) = some ((2 ^ p : Nat) : Int) := by
        simp [pow2]
      rw [Bin_to_Dec, if_neg hne]
      simp only [hc, hm, hpw, hw, Option.bind_eq_bind, Option.some_bind,
        ih (n / 10) (p + 1) (by omega) (by omega), Nat.ofDigits_cons]
      simp only [Option.pure_def, Option.some.injEq]
      push_cast
      ring

/-- An `int` has at most ten decimal digits. -/
theorem digits_length_le_ten (n : Nat) (h : n ≤ 2147483647) : (Nat.digits 10 n).length ≤ 10 := by
  by_cases h0 : n = 0
  · subst h0; simp
  · have h1 := Nat.base_pow_length_digits_le 10 n (by decide) h0
    by_contra hc
    have h2 : 10 ^ 11 ≤ 10 ^ (Nat.digits 10 n).length :=
      Nat.pow_le_pow_right (by decide) (by omega)
    have h3 : (10 : Nat) ^ 11 = 100000000000 := by norm_num
    omega

/-- What `main` computes for every positive `int` input: the base 2 value of the
decimal digits, multiplied by `2 ^ (n_digits - 1)`. It is the base 2 value only
for inputs of one digit. -/
theorem mainAnswer_scaled (binnum fuel : Nat) (hpos : 0 < binnum)
    (hint : binnum ≤ 2147483647) (hfuel : 10 < fuel) :
    mainAnswer fuel (binnum : Int) =
      some ((2 ^ ((Nat.digits 10 binnum).length - 1) * binaryValue binnum : Nat) : Int) := by
  have hlen := digits_length_le_ten binnum hint
  have hd := digits_ten_step binnum hpos
  have hlen1 : 1 ≤ (Nat.digits 10 binnum).length := by
    rw [hd]; simp
  have hc := countDigits_spec fuel binnum 0 (by omega) (by omega)
  have hw : Searching.wrapInt ((((0 + (Nat.digits 10 binnum).length : Nat) : Int)) - 1) =
      (((Nat.digits 10 binnum).length - 1 : Nat) : Int) := by
    rw [Searching.wrapInt_eq _ (by omega) (by omega)]
    omega
  have hb := Bin_to_Dec_spec fuel binnum ((Nat.digits 10 binnum).length - 1) (by omega)
    (by omega)
  have hc0 : countDigits fuel (binnum : Int) 0 =
      some ((0 + (Nat.digits 10 binnum).length : Nat) : Int) := by
    simpa using hc
  rw [mainAnswer, hc0]
  simp only [Option.bind_eq_bind, Option.some_bind, hw, hb, binaryValue]

end Recursion

/-! ## The recursive functions: the claims -/

namespace Recursion

/-- C13, the code at the three inputs of the claim: for 1 the answer is 1, but
for 10 the program computes 4 (the numeral `10` in base 2 is 2) and for 101 it
computes 20 (the numeral `101` in base 2 is 5): `main` starts the recursion at
`power = n_digits - 1` and `Bin_to_Dec` counts `power` up from the last digit. -/
theorem binary_answer_examples :
    mainAnswer 4 1 = some 1 ∧ binaryValue 1 = 1 ∧
      mainAnswer 4 10 = some 4 ∧ binaryValue 10 = 2 ∧
      mainAnswer 4 101 = some 20 ∧ binaryValue 101 = 5 := by
  refine ⟨by decide, ?_, by decide, ?_, by decide, ?_⟩ <;>
    norm_num [binaryValue, Nat.ofDigits]

/-- C14: for positive `int` values `a`, `b` whose least common multiple fits in
an `int`, `LCM(a, b, max(a, b))` terminates (fuel above the least common
multiple is enough) and returns the least common multiple: a positive number
divisible by both and not above any other such number. -/
theorem LCM_correct (a b : Int) (fuel : Nat) (ha : 0 < a) (hb : 0 < b)
    (hint : (Int.lcm a b : Int) ≤ 2147483647) (hfuel : Int.lcm a b < fuel) :
    ∃ r, mainLcm fuel a b = some r ∧ r = (Int.lcm a b : Int) ∧ 0 < r ∧ a ∣ r ∧ b ∣ r ∧
      ∀ m : Int, 0 < m → a ∣ m → b ∣ m → r ≤ m := by
  lift a to Nat using le_of_lt ha
  lift b to Nat using le_of_lt hb
  have ha1 : 0 < a := by exact_mod_cast ha
  have hb1 : 0 < b := by exact_mod_cast hb
  have hl : Int.lcm (a : Int) (b : Int) = Nat.lcm a b := Int.coe_nat_lcm a b
  rw [hl] at hint hfuel ⊢
  have hla : a ≤ Nat.lcm a b := Nat.le_of_dvd (Nat.lcm_pos ha1 hb1) (Nat.dvd_lcm_left a b)
  have hlb : b ≤ Nat.lcm a b := Nat.le_of_dvd (Nat.lcm_pos ha1 hb1) (Nat.dvd_lcm_right a b)
  have hstart : (if (a : Int) > (b : Int) then (a : Int) else (b : Int)) =
      ((max a b : Nat) : Int) := by
    by_cases h : (a : Int) > (b : Int)
    · rw [if_pos h, max_eq_left (by omega)]
    · rw [if_neg h, max_eq_right (by omega)]
  have hrun := LCM_natCast a b ha1 hb1 hint (Nat.lcm a b - max a b) (max a b) fuel
    (by omega) (by omega) (by omega)
  refine ⟨(Nat.lcm a b : Int), ?_, rfl, ?_, ?_, ?_, ?_⟩
  · rw [mainLcm, hstart, hrun]
  · exact_mod_cast Nat.lcm_pos ha1 hb1
  · exact_mod_cast Nat.dvd_lcm_left a b
  · exact_mod_cast Nat.dvd_lcm_right a b
  · intro m hm h1 h2
    lift m to Nat using le_of_lt hm
    have hm1 : 0 < m := by exact_mod_cast hm
    have h3 : Nat.lcm a b ∣ m := Nat.lcm_dvd (by exact_mod_cast h1) (by exact_mod_cast h2)
    exact_mod_cast Nat.le_of_dvd hm1 h3

theorem LCM_correct_witness :
    ∃ r, mainLcm 13 4 6 = some r ∧ r = (Int.lcm 4 6 : Int) ∧ 0 < r ∧ (4 : Int) ∣ r ∧
      (6 : Int) ∣ r ∧ ∀ m : Int, 0 < m → (4 : Int) ∣ m → (6 : Int) ∣ m → r ≤ m :=
  LCM_correct 4 6 13 (by decide) (by decide) (by decide) (by decide)

/-- The function `LCM` evaluated as `main` calls it. -/
theorem LCM_example : mainLcm 13 4 6 = some 12 := by
  decide

/-- C15: for non-negative `int` values `n1`, `n2`, `GCD(n1, n2)` terminates
(fuel above `n2` is enough), never divides by zero, and returns the greatest
common divisor; `GCD(n, 0)` is `n`, so `GCD(0, 0)` is 0. -/
theorem GCD_correct (n1 n2 : Int) (fuel : Nat) (h1 : 0 ≤ n1) (h2 : 0 ≤ n2)
    (hfuel : n2 < fuel) :
    GCD fuel n1 n2 = some (Int.gcd n1 n2 : Int) ∧
      (n2 = 0 → GCD fuel n1 n2 = some n1) ∧
      (n1 = 0 → n2 = 0 → GCD fuel n1 n2 = some 0) := by
  lift n1 to Nat using h1
  lift n2 to Nat using h2
  have hf : n2 < fuel := by exact_mod_cast hfuel
  have hrun := GCD_natCast fuel n1 n2 hf
  have hg : Int.gcd (n1 : Int) (n2 : Int) = Nat.gcd n1 n2 := Int.gcd_natCast_natCast n1 n2
  refine ⟨by rw [hrun, hg], ?_, ?_⟩
  · intro h0
    have : n2 = 0 := by exact_mod_cast h0
    subst this
    rw [hrun]
    simp
  · intro h0 h3
    have e1 : n1 = 0 := by exact_mod_cast h0
    have e2 : n2 = 0 := by exact_mod_cast h3
    subst e1 e2
    rw [hrun]
    simp

theorem GCD_correct_witness :
    GCD 19 12 18 = some (Int.gcd 12 18 : Int) ∧
      ((18 : Int) = 0 → GCD 19 12 18 = some 12) ∧
      ((12 : Int) = 0 → (18 : Int) = 0 → GCD 19 12 18 = some 0) :=
  GCD_correct 12 18 19 (by decide) (by decide) (by decide)

/-- The function `GCD` evaluated. -/
theorem GCD_examples :
    GCD 19 12 18 = some 6 ∧ GCD 1 7 0 = some 7 ∧ GCD 1 0 0 = some 0 ∧
      GCD 8 0 7 = some 7 := by
  decide

end Recursion

/-! ## The string programs: lemmas -/

namespace Strings

theorem scanfString_eq (buf word : List Char) (h : word.length + 1 ≤ buf.length) :
    scanfString buf word = Run.done (word ++ '\x00' :: buf.drop (word.length + 1)) := by
  simp [scanfString, h]

/-- The scan of `strlen` stops at the NUL that follows a word without NUL. -/
theorem strlenFrom_word (s front stale : List Char) (fuel : Nat) (h0 : '\x00' ∉ s)
    (hf : s.length < fuel) :
    strlenFrom (front ++ (s ++ '\x00' :: stale)) fuel front.length =
      Run.done (front.length + s.length) := by
  induction s generalizing front fuel with
  | nil =>
    cases fuel with
    | zero => simp at hf
    | succ f =>
      have hget : (front ++ ('\x00' :: stale))[front.length]? = some '\x00' := by
        rw [List.getElem?_append_right (Nat.le_refl _)]
        simp
      simp [strlenFrom, hget]
  | cons c t ih =>
    cases fuel with
    | zero => simp at hf
    | succ f =>
      have hc : c ≠ '\x00' := fun h => h0 (by simp [h])
      have ht : '\x00' ∉ t := fun h => h0 (List.mem_cons_of_mem _ h)
      have hget : (front ++ (c :: t ++ '\x00' :: stale))[front.length]? = some c := by
        rw [List.getElem?_append_right (Nat.le_refl _)]
        simp
      have hrec := ih (front ++ [c]) f ht (by simpa using hf)
      simp only [List.append_assoc, List.singleton_append, List.length_append,
        List.length_singleton] at hrec
      have hlen : front.length + 1 + t.length = front.length + (c :: t).length := by
        simp only [List.length_cons]
        omega
      rw [← hlen, ← hrec]
      simp only [strlenFrom, hget, hc, if_false]
      rfl

theorem strlen_word (s stale : List Char) (fuel : Nat) (h0 : '\x00' ∉ s)
    (hf : s.length < fuel) :
    strlen fuel (s ++ '\x00' :: stale) = Run.done s.length := by
  have := strlenFrom_word s [] stale fuel h0 hf
  simpa [strlen] using this

theorem readChar_front (t stale : List Char) (i : Nat) (h : i < t.length) :
    readChar (t ++ stale) (i : Int) = Run.done t[i] := by
  have h1 : (t ++ stale)[i]? = some t[i] := by
    rw [List.getElem?_append_left h, List.getElem?_eq_getElem h]
  simp [readChar, h1]

/-- The comparison loop on two arrays that start with `t1` and `t2`, of the same
length, the last character of `t1` being the first NUL of `str1`: from offset
`i` on, it reports whether the rests of `t1` and `t2` are the same. -/
theorem compareLoop_spec (t1 t2 st1 st2 : List Char) (fuel0 : Nat)
    (hlen : t1.length = t2.length)
    (hstrlen : strlen fuel0 (t1 ++ st1) = Run.done (t1.length - 1)) (hpos : 0 < t1.length)
    (d : Nat) :
    ∀ (i fuel : Nat), i + d = t1.length → d < fuel →
      compareLoop (t1 ++ st1) (t2 ++ st2) fuel0 fuel i i i =
        Run.done (if t1.drop i = t2.drop i then "The strings are equal."
          else "The strings are not equal. ") := by
  induction d with
  | zero =>
    intro i fuel hi hfuel
    cases fuel with
    | zero => omega
    | succ f =>
      have hcond : ¬ (i ≤ t1.length - 1) := by omega
      have e1 : t1.drop i = [] := List.drop_eq_nil_of_le (by omega)
      have e2 : t2.drop i = [] := List.drop_eq_nil_of_le (by omega)
      simp [compareLoop, hstrlen, hcond, e1, e2]
  | succ d ih =>
    intro i fuel hi hfuel
    cases fuel with
    | zero => omega
    | succ f =>
      have hcond : i ≤ t1.length - 1 := by omega
      have h1 : i < t1.length := by omega
      have h2 : i < t2.length := by omega
      have e1 : t1.drop i = t1[i] :: t1.drop (i + 1) := List.drop_eq_getElem_cons h1
      have e2 : t2.drop i = t2[i] :: t2.drop (i + 1) := List.drop_eq_getElem_cons h2
      have hrec := ih (i + 1) f (by omega) (by omega)
      simp only [compareLoop, hstrlen, hcond, if_true, readChar_front t1 st1 i h1,
        readChar_front t2 st2 i h2, e1, e2, List.cons.injEq]
      by_cases hc : t1[i] = t2[i]
      · simp only [hc, if_true, true_and]
        exact hrec
      · simp [hc]

end Strings

/-! ## The string programs: the claims -/

namespace Strings

/-- C18: for two words without NUL read into two arrays of at most 100
characters in which they fit with their terminating NUL (so the words have at
most 99 characters), whatever the arrays held before, the comparison program
terminates without an access outside of the arrays; after the prompts it prints
`The strings are equal.` when the two words are the same and otherwise
`The strings are not equal. `, once. The arrays may end right after the
terminating NUL, where a read past the NUL would be an access outside of the
array: the loop reads nothing after the NUL. -/
theorem equal_strings_correct (fuel : Nat) (buf1 buf2 word1 word2 : List Char)
    (hw1 : word1.length < buf1.length) (hw2 : word2.length < buf2.length)
    (hb1 : buf1.length ≤ BUF_SIZE) (hb2 : buf2.length ≤ BUF_SIZE)
    (h01 : '\x00' ∉ word1) (h02 : '\x00' ∉ word2) (hfuel : BUF_SIZE < fuel) :
    equalMain fuel buf1 buf2 word1 word2 =
      Run.done (prompts ++
        (if word1 = word2 then "The strings are equal." else "The strings are not equal. ")) := by
  have hB : BUF_SIZE = 100 := rfl
  rw [hB] at hb1 hb2 hfuel
  have hs1 := strlen_word word1 (buf1.drop (word1.length + 1)) fuel h01 (by omega)
  have hs2 := strlen_word word2 (buf2.drop (word2.length + 1)) fuel h02 (by omega)
  unfold equalMain
  rw [scanfString_eq buf1 word1 (by omega), scanfString_eq buf2 word2 (by omega)]
  simp only [hs1, hs2]
  by_cases hlen : word1.length = word2.length
  · have hloop := compareLoop_spec (word1 ++ ['\x00']) (word2 ++ ['\x00'])
      (buf1.drop (word1.length + 1)) (buf2.drop (word2.length + 1)) fuel
      (by simp [hlen]) (by simpa using hs1) (by simp) (word1.length + 1) 0 fuel
      (by simp) (by omega)
    simp only [List.append_assoc, List.singleton_append, List.drop_zero] at hloop
    rw [if_neg (not_not.mpr hlen), hloop]
    by_cases he : word1 = word2
    · simp [he]
    · have : ¬ (word1 ++ ['\x00'] = word2 ++ ['\x00']) := by
        intro h
        exact he (List.append_cancel_right h)
      simp [he, this]
  · have he : word1 ≠ word2 := fun h => hlen (by rw [h])
    simp [hlen, he]

theorem equal_strings_correct_witness :
    equalMain 101 (List.replicate 100 'x') (List.replicate 100 'y') "abc".toList "abd".toList =
      Run.done (prompts ++
        (if "abc".toList = "abd".toList then "The strings are equal."
          else "The strings are not equal. ")) :=
  equal_strings_correct 101 (List.replicate 100 'x') (List.replicate 100 'y') "abc".toList
    "abd".toList (by decide) (by decide) (by decide) (by decide) (by decide) (by decide)
    (by decide)

/-- The comparison program on arrays that end right after the terminating NUL. -/
theorem equal_strings_tight_arrays :
    equalMain 101 "wxyz".toList "wxyz".toList "abc".toList "abc".toList =
        Run.done "Enter the two strings: \nString 1: String 2: The strings are equal." ∧
      equalMain 101 "wxyz".toList "wxyz".toList "abc".toList "abd".toList =
        Run.done "Enter the two strings: \nString 1: String 2: The strings are not equal. " := by
  decide

/-- The comparison program evaluated on equal words, on words that differ in a
character, and on words of different lengths. -/
theorem equal_strings_examples :
    equalMain 101 (List.replicate 100 'x') (List.replicate 100 'y') "abc".toList "abc".toList =
        Run.done "Enter the two strings: \nString 1: String 2: The strings are equal." ∧
      equalMain 101 (List.replicate 100 'x') (List.replicate 100 'y') "abc".toList "abd".toList =
        Run.done "Enter the two strings: \nString 1: String 2: The strings are not equal. " ∧
      equalMain 101 (List.replicate 100 'x') (List.replicate 100 'y') "abc".toList "ab".toList =
        Run.done "Enter the two strings: \nString 1: String 2: The strings are not equal. " := by
  decide

end Strings

namespace Strings

theorem readChar_nul (s stale : List Char) :
    readChar (s ++ '\x00' :: stale) (s.length : Int) = Run.done '\x00' := by
  have h1 : (s ++ '\x00' :: stale)[s.length]? = some '\x00' := by
    rw [List.getElem?_append_right (Nat.le_refl _)]
    simp
  simp [readChar, h1]

theorem palindrome_getElem (s : List Char) (hpal : IsPalindrome s) (i : Nat)
    (hi : i < s.length) (h1 : i < s.length) (h2 : s.length - 1 - i < s.length) :
    s[i] = s[s.length - 1 - i] := by
  have hrev := List.getElem?_reverse hi
  unfold IsPalindrome at hpal
  rw [hpal, List.getElem?_eq_getElem h1, List.getElem?_eq_getElem h2] at hrev
  exact Option.some.inj hrev

/-- On a palindrome of even length the index pairs `(i, len - 1 - i)` never
meet: from any `i` on, all comparisons succeed up to the pair `(len, -1)`, where
the read at index -1 is outside of the array. -/
theorem palindrome_check_crossing (s stale : List Char) (hlen : s.length ≤ 99)
    (heven : s.length % 2 = 0) (hpal : IsPalindrome s) (d : Nat) :
    ∀ (i fuel : Nat), i + d = s.length → d < fuel →
      palindrome_check (s ++ '\x00' :: stale) fuel (i : Int) ((s.length : Int) - 1 - i) =
        Run.outside (-1) := by
  induction d with
  | zero =>
    intro i fuel hi hfuel
    cases fuel with
    | zero => omega
    | succ f =>
      have hil : i = s.length := by omega
      subst hil
      have hne : ¬ ((s.length : Int) = (s.length : Int) - 1 - (s.length : Int)) := by omega
      have hup : (s.length : Int) - 1 - (s.length : Int) = -1 := by omega
      rw [palindrome_check, if_neg hne, readChar_nul, hup]
      rfl
  | succ d ih =>
    intro i fuel hi hfuel
    cases fuel with
    | zero => omega
    | succ f =>
      have h1 : i < s.length := by omega
      have h2 : s.length - 1 - i < s.length := by omega
      have hne : ¬ ((i : Int) = (s.length : Int) - 1 - (i : Int)) := by omega
      have hup : (s.length : Int) - 1 - (i : Int) = ((s.length - 1 - i : Nat) : Int) := by omega
      have hr1 := readChar_front s ('\x00' :: stale) i h1
      have hr2 := readChar_front s ('\x00' :: stale) (s.length - 1 - i) h2
      have heq := palindrome_getElem s hpal i h1 h1 h2
      have hw1 : Searching.wrapInt ((i : Int) + 1) = ((i + 1 : Nat) : Int) := by
        rw [Searching.wrapInt_eq _ (by omega) (by omega)]
        simp
      have hw2 : Searching.wrapInt (((s.length - 1 - i : Nat) : Int) - 1) =
          (s.length : Int) - 1 - ((i + 1 : Nat) : Int) := by
        rw [Searching.wrapInt_eq _ (by omega) (by omega)]
        omega
      rw [palindrome_check, if_neg hne, hup, hr1, hr2]
      simp only [heq, if_true, hw1, hw2]
      exact ih (i + 1) f (by omega) (by omega)

/-- Every non-empty palindrome of even length (at most 99 characters) makes
`palindrome_check(string, 0, len - 1)` read `string[-1]`. -/
theorem palindrome_check_even (s stale : List Char) (fuel : Nat) (hlen : s.length ≤ 99)
    (heven : s.length % 2 = 0) (hpal : IsPalindrome s) (hfuel : s.length < fuel) :
    palindrome_check (s ++ '\x00' :: stale) fuel 0 ((s.length : Int) - 1) =
      Run.outside (-1) := by
  have := palindrome_check_crossing s stale hlen heven hpal s.length 0 fuel (by omega) hfuel
  simpa using this

/-- C12, the program at the three inputs of the claim. `aba` and `ab` are
answered as the claim says. For the palindrome `abba` of even length the
indices cross without meeting (`(0,3)`, `(1,2)`, `(2,1)`, `(3,0)`, `(4,-1)`):
the function reads `string[4]`, the terminating NUL, and then `string[-1]`,
outside of the array, and does not return -1. -/
theorem palindrome_examples :
    palindromeMain 101 (List.replicate 100 'x') "aba".toList =
        Run.done "Enter the string: The string is a palindrome. " ∧
      palindromeMain 101 (List.replicate 100 'x') "ab".toList =
        Run.done "Enter the string: The string is not a palindrome. " ∧
      IsPalindrome "abba".toList ∧
      palindrome_check ("abba".toList ++ '\x00' :: List.replicate 95 'x') 101 0 3 =
        Run.outside (-1) ∧
      palindromeMain 101 (List.replicate 100 'x') "abba".toList = Run.outside (-1) := by
  decide

end Strings

/-! ## Matrix multiplication: lemmas -/

namespace MatrixMul

/-- The invariant rule for `forLoop`: an invariant kept by the body holds at the
end, and the loop yields a state when the fuel exceeds the iterations left. -/
theorem forLoop_rule {σ : Type} (n : Nat) (body : Nat → σ → Option σ)
    (Inv : Nat → σ → Prop)
    (hstep : ∀ i s, i < n → Inv i s → ∃ s1, body i s = some s1 ∧ Inv (i + 1) s1)
    (r : Nat) :
    ∀ (i fuel : Nat) (s : σ), i + r = n → r < fuel → Inv i s →
      ∃ s1, forLoop (n : Int) body fuel i s = some s1 ∧ Inv n s1 := by
  induction r with
  | zero =>
    intro i fuel s hi hfuel hinv
    cases fuel with
    | zero => omega
    | succ f =>
      have hcond : ¬ ((i : Int) < (n : Int)) := by omega
      have hin : i = n := by omega
      subst hin
      exact ⟨s, by simp [forLoop], hinv⟩
  | succ r ih =>
    intro i fuel s hi hfuel hinv
    cases fuel with
    | zero => omega
    | succ f =>
      have hcond : (i : Int) < (n : Int) := by omega
      obtain ⟨s1, hb, hinv1⟩ := hstep i s (by omega) hinv
      obtain ⟨s2, hrun, hinv2⟩ := ih (i + 1) f s1 (by omega) (by omega) hinv1
      exact ⟨s2, by simp [forLoop, hcond, hb, hrun], hinv2⟩

theorem writeAt_zero (S : Nat → Nat → Prop) (a : Mat) (i k : Nat) (hi : i < DIM)
    (hk : k < DIM) (h : ZeroOn S a) :
    ∃ a1, writeAt a i k 0 = some a1 ∧ ZeroOn (fun p q => S p q ∨ (p = i ∧ q = k)) a1 := by
  refine ⟨fun p q => if p = i ∧ q = k then 0 else a p q, by simp [writeAt, hi, hk], ?_⟩
  intro p q hpq
  by_cases hc : p = i ∧ q = k
  · simp [hc]
  · simp only [hc, if_false]
    rcases hpq with h1 | h1
    · exact h p q h1
    · exact absurd h1 hc

/-- The first triple loop leaves zeros in `answer[0..l-1][0..n-1]`. -/
theorem zeroLoops_spec (l m n fuel : Nat) (answer : Mat) (hl : l ≤ DIM) (hm : 1 ≤ m)
    (hm2 : m ≤ DIM) (hn : n ≤ DIM) (hfuel : DIM < fuel) :
    ∃ a, zeroLoops fuel l m n answer = some a ∧ ZeroOn (fun p q => p < l ∧ q < n) a := by
  have hD : DIM = 10 := rfl
  have hres := forLoop_rule l
    (fun i a1 => forLoop (m : Int) (fun _ a2 =>
      forLoop (n : Int) (fun k a3 => writeAt a3 i k 0) fuel 0 a2) fuel 0 a1)
    (fun i a => ZeroOn (fun p q => p < i ∧ q < n) a)
    (by
      intro i a hi hinv
      have hmid := forLoop_rule m
        (fun _ a2 => forLoop (n : Int) (fun k a3 => writeAt a3 i k 0) fuel 0 a2)
        (fun j a2 => ZeroOn (fun p q => (p < i ∧ q < n) ∨ (p = i ∧ q < n ∧ 0 < j)) a2)
        (by
          intro j a2 _ hinv2
          have hin := forLoop_rule n (fun k a3 => writeAt a3 i k 0)
            (fun k a3 => ZeroOn (fun p q => ((p < i ∧ q < n) ∨ (p = i ∧ q < n ∧ 0 < j)) ∨
              (p = i ∧ q < k)) a3)
            (by
              intro k a3 hk hinv3
              obtain ⟨a4, hw, hz⟩ := writeAt_zero _ a3 i k (by omega) (by omega) hinv3
              refine ⟨a4, hw, ?_⟩
              intro p q hpq
              apply hz
              rcases hpq with h1 | ⟨h1, h2⟩
              · exact Or.inl (Or.inl h1)
              · by_cases hqk : q = k
                · exact Or.inr ⟨h1, hqk⟩
                · exact Or.inl (Or.inr ⟨h1, by omega⟩))
            n 0 fuel a2 (by omega) (by omega)
            (by
              intro p q hpq
              apply hinv2
              rcases hpq with h1 | ⟨_, h2⟩
              · exact h1
              · omega)
          obtain ⟨a3, hrun, hz⟩ := hin
          refine ⟨a3, hrun, ?_⟩
          intro p q hpq
          apply hz
          rcases hpq with h1 | ⟨h1, h2, _⟩
          · exact Or.inl (Or.inl h1)
          · exact Or.inr ⟨h1, h2⟩)
        m 0 fuel a (by omega) (by omega)
        (by
          intro p q hpq
          apply hinv
          rcases hpq with h1 | ⟨_, _, h3⟩
          · exact h1
          · omega)
      obtain ⟨a2, hrun, hz⟩ := hmid
      refine ⟨a2, hrun, ?_⟩
      intro p q hpq
      apply hz
      by_cases hpi : p = i
      · exact Or.inr ⟨hpi, hpq.2, by omega⟩
      · exact Or.inl ⟨by omega, hpq.2⟩)
    l 0 fuel answer (by omega) (by omega)
    (by
      intro p q hpq
      omega)
  exact hres

theorem wrapInt_of_inInt (x : Int) (h : InInt x) : Searching.wrapInt x = x :=
  Searching.wrapInt_eq x h.1 (by have := h.2; omega)

theorem accumulated_congr (m1 m2 : Mat) (l n : Nat) (c1 c2 : Nat → Nat → Nat) (a : Mat)
    (hc : ∀ p q, p < l → q < n → c1 p q = c2 p q) (h : Accumulated m1 m2 l n c1 a) :
    Accumulated m1 m2 l n c2 a := by
  intro p q hp hq
  rw [← hc p q hp hq]
  exact h p q hp hq

/-- One execution of `answer[i][k] += m1[i][j] * m2[j][k]`. -/
theorem accumulate_spec (l m n : Nat) (m1 m2 a : Mat) (i j k : Nat) (hl : l ≤ DIM)
    (hm : m ≤ DIM) (hn : n ≤ DIM) (hi : i < l) (hj : j < m) (hk : k < n)
    (hno : NoOverflow l m n m1 m2)
    (h : Accumulated m1 m2 l n (progress m i j k) a) :
    ∃ a1, accumulate m1 m2 i j k a = some a1 ∧
      Accumulated m1 m2 l n (progress m i j (k + 1)) a1 := by
  have hold : a i k = partialDot m1 m2 i k j := by
    have := h i k hi hk
    simpa [progress] using this
  obtain ⟨hprod, hsum⟩ := hno i hi k hk j hj
  have hw1 : Searching.wrapInt (m1 i j * m2 j k) = m1 i j * m2 j k := wrapInt_of_inInt _ hprod
  have hw2 : Searching.wrapInt (a i k + m1 i j * m2 j k) = partialDot m1 m2 i k (j + 1) := by
    rw [hold]
    exact wrapInt_of_inInt _ hsum
  have hi1 : i < DIM := by omega
  have hj1 : j < DIM := by omega
  have hk1 : k < DIM := by omega
  refine ⟨fun p q => if p = i ∧ q = k then partialDot m1 m2 i k (j + 1) else a p q, ?_, ?_⟩
  · simp [accumulate, readAt, writeAt, hi1, hj1, hk1, hw1, hw2]
  · intro p q hp hq
    by_cases hc : p = i ∧ q = k
    · obtain ⟨rfl, rfl⟩ := hc
      simp [progress]
    · simp only [hc, if_false]
      rw [h p q hp hq]
      congr 1
      unfold progress
      by_cases hpi : p = i
      · have hqk : q ≠ k := fun hq => hc ⟨hpi, hq⟩
        have e : (q < k + 1) = (q < k) := propext ⟨fun h => by omega, fun h => by omega⟩
        simp only [hpi, e]
      · simp only [hpi, if_false]

/-- The second triple loop, started on zeros, leaves all `m` products added at
every position. -/
theorem mulLoops_spec (l m n fuel : Nat) (m1 m2 a0 : Mat) (hl : l ≤ DIM) (hm : m ≤ DIM)
    (hn : n ≤ DIM) (hfuel : DIM < fuel) (hno : NoOverflow l m n m1 m2)
    (h0 : Accumulated m1 m2 l n (progress m 0 0 0) a0) :
    ∃ a, mulLoops fuel l m n m1 m2 a0 = some a ∧
      Accumulated m1 m2 l n (fun _ _ => m) a := by
  have hD : DIM = 10 := rfl
  have hres := forLoop_rule l
    (fun i a1 => forLoop (m : Int) (fun j a2 =>
      forLoop (n : Int) (fun k a3 => accumulate m1 m2 i j k a3) fuel 0 a2) fuel 0 a1)
    (fun i a => Accumulated m1 m2 l n (progress m i 0 0) a)
    (by
      intro i a hi hinv
      have hmid := forLoop_rule m
        (fun j a2 => forLoop (n : Int) (fun k a3 => accumulate m1 m2 i j k a3) fuel 0 a2)
        (fun j a2 => Accumulated m1 m2 l n (progress m i j 0) a2)
        (by
          intro j a2 hj hinv2
          have hin := forLoop_rule n (fun k a3 => accumulate m1 m2 i j k a3)
            (fun k a3 => Accumulated m1 m2 l n (progress m i j k) a3)
            (fun k a3 hk hinv3 => accumulate_spec l m n m1 m2 a3 i j k hl hm hn hi hj hk hno hinv3)
            n 0 fuel a2 (by omega) (by omega) hinv2
          obtain ⟨a3, hrun, hacc⟩ := hin
          refine ⟨a3, hrun, accumulated_congr m1 m2 l n _ _ a3 ?_ hacc⟩
          intro p q _ hq
          simp [progress, hq])
        m 0 fuel a (by omega) (by omega) hinv
      obtain ⟨a2, hrun, hacc⟩ := hmid
      refine ⟨a2, hrun, accumulated_congr m1 m2 l n _ _ a2 ?_ hacc⟩
      intro p q _ _
      unfold progress
      by_cases h1 : p < i
      · have h2 : p < i + 1 := by omega
        simp [h1, h2]
      · by_cases h2 : p = i
        · subst h2
          simp
        · have h3 : ¬ (p < i + 1) := by omega
          by_cases h4 : p = i + 1
          · simp [h1, h2, h3, h4]
          · simp [h1, h2, h3, h4])
    l 0 fuel a0 (by omega) (by omega) h0
  obtain ⟨a, hrun, hacc⟩ := hres
  refine ⟨a, hrun, accumulated_congr m1 m2 l n _ _ a ?_ hacc⟩
  intro p q hp _
  simp [progress, hp]

theorem partialDot_eq_sum (m1 m2 : Mat) (i k j : Nat) :
    partialDot m1 m2 i k j = ∑ t in Finset.range j, m1 i t * m2 t k := by
  induction j with
  | zero => simp [partialDot]
  | succ j ih => rw [partialDot, ih, Finset.sum_range_succ]

end MatrixMul

/-! ## Matrix multiplication: the claim -/

namespace MatrixMul

/-- C17: for dimensions `1 <= l, m, n <= 10`, matrices `m1`, `m2` whose products
and partial sums stay in the `int` range, and any initial content of `answer`,
the two triple loops terminate without an access outside of the arrays and
leave `answer[i][k]` equal to the sum over `j < m` of `m1[i][j] * m2[j][k]` for
all `i < l`, `k < n`. -/
theorem multiply_correct (l m n fuel : Nat) (m1 m2 answer0 : Mat)
    (_hl1 : 1 ≤ l) (hl2 : l ≤ 10) (hm1 : 1 ≤ m) (hm2 : m ≤ 10) (_hn1 : 1 ≤ n) (hn2 : n ≤ 10)
    (hno : NoOverflow l m n m1 m2) (hfuel : 10 < fuel) :
    ∃ answer, multiply fuel l m n m1 m2 answer0 = some answer ∧
      ∀ i k, i < l → k < n → answer i k = ∑ j in Finset.range m, m1 i j * m2 j k := by
  obtain ⟨z, hz, hzero⟩ := zeroLoops_spec l m n fuel answer0 hl2 hm1 hm2 hn2 hfuel
  have h0 : Accumulated m1 m2 l n (progress m 0 0 0) z := by
    intro p q hp hq
    rw [hzero p q ⟨hp, hq⟩]
    simp [progress, partialDot]
  obtain ⟨a, ha, hacc⟩ := mulLoops_spec l m n fuel m1 m2 z hl2 hm2 hn2 hfuel hno h0
  refine ⟨a, by simp [multiply, hz, ha], ?_⟩
  intro i k hi hk
  rw [hacc i k hi hk, partialDot_eq_sum]

theorem multiply_correct_witness :
    ∃ answer, multiply 11 2 2 2 sampleMatrix sampleMatrix (fun _ _ => 77) = some answer ∧
      ∀ i k, i < 2 → k < 2 →
        answer i k = ∑ j in Finset.range 2, sampleMatrix i j * sampleMatrix j k :=
  multiply_correct 2 2 2 11 sampleMatrix sampleMatrix (fun _ _ => 77)
    (by decide) (by decide) (by decide) (by decide) (by decide) (by decide) (by decide)
    (by decide)

/-- The two triple loops evaluated on the product of `1 2; 3 4` with itself,
`answer` holding 77 everywhere before. -/
theorem multiply_example :
    (multiply 11 2 2 2 sampleMatrix sampleMatrix (fun _ _ => 77)).map
        (fun a => [[a 0 0, a 0 1], [a 1 0, a 1 1]]) = some [[7, 10], [15, 22]] := by
  decide

end MatrixMul

/-! ## The quadratic equation -/

namespace Quadratic

/-- C16, the program at the three inputs of the claim. For `(1, 2, 1)` it
reports the root `-1`. For `(4, 4, 1)` (`D == 0`) it reports `0`, the truncated
quotient `-4 / 8`, which is not a root (the root is `-1/2`). For `(1, 0, 1)`
(`D < 0`) it reports `0 + (-2)i` and `0 - (-2)i`, with `imag = D / (2 * a)`,
which are not roots (the roots are `i` and `-i`). -/
theorem quadratic_examples :
    main 1 2 1 = some (Report.repeated (-1)) ∧ IsRoot 1 2 1 ((-1 : Int) : ℂ) ∧
      main 4 4 1 = some (Report.repeated 0) ∧ ¬ IsRoot 4 4 1 ((0 : Int) : ℂ) ∧
      main 1 0 1 = some (Report.complex 0 (-2)) ∧
      ¬ IsRoot 1 0 1 (((0 : Int) : ℂ) + ((-2 : Int) : ℂ) * Complex.I) ∧
      ¬ IsRoot 1 0 1 (((0 : Int) : ℂ) - ((-2 : Int) : ℂ) * Complex.I) := by
  refine ⟨by decide, ?_, by decide, ?_, by decide, ?_, ?_⟩
  · unfold IsRoot
    push_cast
    norm_num
  · unfold IsRoot
    push_cast
    norm_num
  · unfold IsRoot
    intro h
    have hre := congrArg Complex.re h
    simp [pow_two] at hre
    norm_num at hre
  · unfold IsRoot
    intro h
    have hre := congrArg Complex.re h
    simp [pow_two] at hre
    norm_num at hre

end Quadratic
